import Mathlib

/-!
Verification of a deterministic pushdown automaton (DPDA) library:
the builder (`add_state`, `mark_initial_state`, `set_initial_stack_symbol`,
`add_transition`), the execution engine (`step`, `accepts`,
`is_deterministic`), the canonical state renaming (`normalize_states`) and
the complement construction (`crear_automata_complemento`).

Python strings are embedded as `List Char` (`Str`); Python sets as lists
with set-style insertion (`setAdd`); the transition dict as an association
list with unique keys; `raise` as `Except BuildErr`.
-/

set_option maxRecDepth 4000

namespace APDVerify

/-- Python strings (state names, words, stacks, push strings) as lists of
characters. -/
abbrev Str := List Char

/-- The distinct `ValueError` raise sites of the builder, grouped by the
kind of precondition they report. -/
inductive BuildErr : Type where
  | duplicateState : BuildErr
  | unknownState : BuildErr
  | nonDetConflict : BuildErr
deriving DecidableEq, Repr

/-- The data carried by class `AP`/`APD`/`APDC` (apd.py / ap.py): state
set, initial state, accepting set, deterministic transition dict
`(state, input?, stack_top) ↦ (new_state, stack_push)`, the two alphabets
and the initial stack symbol.  Sets and the dict are embedded as lists in
insertion order. -/
structure APD (α : Type) : Type where
  states : List α
  initial_state : Option α
  final_states : List α
  transitions : List ((α × Option Char × Char) × (α × Str))
  input_alphabet : List Char
  stack_alphabet : List Char
  initial_stack_symbol : Char
deriving DecidableEq, Repr

/-- Python `set.add`: insert if absent. -/
def setAdd {β : Type} [DecidableEq β] (l : List β) (x : β) : List β :=
  if x ∈ l then l else l ++ [x]

/-- `key in self.transitions` on the transition dict. -/
def hasKey {α : Type} [DecidableEq α]
    (ts : List ((α × Option Char × Char) × (α × Str)))
    (k : α × Option Char × Char) : Bool :=
  ts.any fun kv => decide (kv.1 = k)

/-- `self.transitions.get(key)` on the transition dict. -/
def getT {α : Type} [DecidableEq α]
    (ts : List ((α × Option Char × Char) × (α × Str)))
    (k : α × Option Char × Char) : Option (α × Str) :=
  (ts.find? fun kv => decide (kv.1 = k)).map (·.2)

/-- `AP.__init__`: no states, no initial state, empty dict and alphabets,
initial stack symbol `⊥` (`SpecialStackSymbol.EMPTY`). -/
def newAPD (α : Type) : APD α :=
  ⟨[], none, [], [], [], [], '⊥'⟩

/-- `AP.add_state`: raises if the state is already registered, otherwise
registers it, optionally as accepting. -/
def add_state {α : Type} [DecidableEq α] (A : APD α) (state : α)
    (final : Bool) : Except BuildErr (APD α) :=
  if state ∈ A.states then .error .duplicateState
  else .ok { A with
    states := A.states ++ [state]
    final_states := if final then A.final_states ++ [state] else A.final_states }

/-- `AP.mark_initial_state`: raises if the state is unknown, otherwise
overwrites the initial-state pointer. -/
def mark_initial_state {α : Type} [DecidableEq α] (A : APD α) (state : α) :
    Except BuildErr (APD α) :=
  if state ∈ A.states then .ok { A with initial_state := some state }
  else .error .unknownState

/-- `AP.set_initial_stack_symbol`: sets the symbol and adds it to the stack
alphabet. -/
def set_initial_stack_symbol {α : Type} (A : APD α) (symbol : Char) : APD α :=
  { A with initial_stack_symbol := symbol
           stack_alphabet := setAdd A.stack_alphabet symbol }

/-- The success branch of `APD.add_transition`: store the transition and
update both alphabets (every character of `stack_push` joins Γ). -/
def addTransitionT {α : Type} [DecidableEq α] (A : APD α) (state new_state : α)
    (input_symbol : Option Char) (stack_top : Char) (stack_push : Str) : APD α :=
  { A with
    transitions := A.transitions ++ [((state, input_symbol, stack_top), (new_state, stack_push))]
    input_alphabet := match input_symbol with
      | some c => setAdd A.input_alphabet c
      | none => A.input_alphabet
    stack_alphabet := stack_push.foldl setAdd (setAdd A.stack_alphabet stack_top) }

/-- `APD.add_transition`: checks both endpoints are registered, that the
exact key is fresh, and that no ε/symbol mix arises for the same
`(state, stack_top)` pair (for an ε insertion the code scans the current
input alphabet); on success inserts and updates the alphabets. -/
def add_transition {α : Type} [DecidableEq α] (A : APD α) (state new_state : α)
    (input_symbol : Option Char) (stack_top : Char) (stack_push : Str) :
    Except BuildErr (APD α) :=
  if state ∉ A.states then .error .unknownState
  else if new_state ∉ A.states then .error .unknownState
  else if hasKey A.transitions (state, input_symbol, stack_top) then .error .nonDetConflict
  else
    match input_symbol with
    | some c =>
      if hasKey A.transitions (state, none, stack_top) then .error .nonDetConflict
      else .ok (addTransitionT A state new_state (some c) stack_top stack_push)
    | none =>
      if A.input_alphabet.any fun symbol => hasKey A.transitions (state, some symbol, stack_top)
      then .error .nonDetConflict
      else .ok (addTransitionT A state new_state none stack_top stack_push)

/-- `APD.get_transition`. -/
def get_transition {α : Type} [DecidableEq α] (A : APD α) (state : α)
    (input_symbol : Option Char) (stack_top : Char) : Option (α × Str) :=
  getT A.transitions (state, input_symbol, stack_top)

/-- `APD.step`: no move on an empty stack; otherwise try the transition on
the first input symbol, then the ε-transition; a firing transition pops the
top and pushes the replacement string in reverse (its first character ends
on top; the stack's last element is its top). -/
def step {α : Type} [DecidableEq α] (A : APD α) (state : α)
    (remaining_input : Str) (stack : Str) : Option (α × Str × Str) :=
  match stack.getLast? with
  | none => none
  | some stack_top =>
    let viaSymbol : Option (α × Str × Str) :=
      match remaining_input with
      | [] => none
      | c :: rest =>
        match get_transition A state (some c) stack_top with
        | some (new_state, stack_string) =>
            some (new_state, rest, stack.dropLast ++ stack_string.reverse)
        | none => none
    match viaSymbol with
    | some r => some r
    | none =>
      match get_transition A state none stack_top with
      | some (new_state, stack_string) =>
          some (new_state, remaining_input, stack.dropLast ++ stack_string.reverse)
      | none => none

/-- The acceptance test `APD.accepts` evaluates on a configuration, both
inside the loop and in the final re-check after the loop (the two code
sites compute the same predicate): input consumed and, by mode, current
state accepting / stack empty; any other mode never accepts. -/
def acceptCond {α : Type} [DecidableEq α] (A : APD α) (mode : String)
    (state : α) (remaining_input : Str) (stack : Str) : Bool :=
  if remaining_input.isEmpty then
    if mode = "final_state" then decide (state ∈ A.final_states)
    else if mode = "empty_stack" then stack.isEmpty
    else false
  else false

/-- The `while steps < max_steps` loop of `APD.accepts`, with the remaining
iteration budget as fuel: each iteration checks acceptance, then steps;
a stuck configuration is re-checked once more (the `break` path), and an
exhausted budget falls through to the same final check. -/
def acceptsFrom {α : Type} [DecidableEq α] (A : APD α) (mode : String) :
    Nat → α → Str → Str → Bool
  | 0, state, remaining_input, stack => acceptCond A mode state remaining_input stack
  | fuel + 1, state, remaining_input, stack =>
    if acceptCond A mode state remaining_input stack then true
    else
      match step A state remaining_input stack with
      | none => acceptCond A mode state remaining_input stack
      | some (s, r, st) => acceptsFrom A mode fuel s r st

/-- `APD.accepts`: run from the initial configuration with step budget
`len(word) * 100 + 1000`.  With no initial state marked the Python run is
stuck at once (no stored key can carry the `None` state) and every
acceptance check fails, so it returns `False`. -/
def accepts {α : Type} [DecidableEq α] (A : APD α) (word : Str)
    (mode : String := "final_state") : Bool :=
  match A.initial_state with
  | none => false
  | some q0 => acceptsFrom A mode (word.length * 100 + 1000) q0 word [A.initial_stack_symbol]

/-- `APD.is_deterministic`: scan all stored keys; an ε-key must not
coexist with a symbol key, for any symbol of the input alphabet, on the
same `(state, stack_top)`. -/
def is_deterministic {α : Type} [DecidableEq α] (A : APD α) : Bool :=
  A.transitions.all fun kv =>
    match kv.1 with
    | (state, none, stack_sym) =>
        A.input_alphabet.all fun symbol => !hasKey A.transitions (state, some symbol, stack_sym)
    | (_, some _, _) => true

/-- One entry of a source transition dict. -/
abbrev PEntry (α : Type) := (α × Option Char × Char) × (α × Str)

/-- One entry of a complement transition dict (states carry a marker). -/
abbrev CEntry (α : Type) := ((α × Nat) × Option Char × Char) × ((α × Nat) × Str)

/-- The body of the state loop of `crear_automata_complemento`: register
the three marked copies of a source state, `(q, 2)` accepting. -/
def addTripleStates {α : Type} [DecidableEq α] (C : APD (α × Nat)) (q : α) :
    Except BuildErr (APD (α × Nat)) := do
  let C ← add_state C (q, 0) false
  let C ← add_state C (q, 1) false
  add_state C (q, 2) true

/-- The body of the rule (i) loop: a symbol transition `q --a,X/s--> p` of
the source yields the two transitions `(q,1) --a,X/s--> (p,i)` and
`(q,2) --a,X/s--> (p,i)` with `i = 1` iff `p` is accepting; ε-entries are
skipped. -/
def addRuleOne {α : Type} [DecidableEq α] (fin : List α) (C : APD (α × Nat))
    (t : PEntry α) : Except BuildErr (APD (α × Nat)) :=
  match t with
  | ((q, some a, stack_symbol), (p, stack_push)) => do
      let i := if p ∈ fin then 1 else 0
      let C ← add_transition C (q, 1) (p, i) (some a) stack_symbol stack_push
      add_transition C (q, 2) (p, i) (some a) stack_symbol stack_push
  | ((_, none, _), _) => pure C

/-- The body of the rule (ii) loop: an ε-transition `q --ε,X/s--> p` of
the source yields `(q,1) --ε,X/s--> (p,1)` and `(q,0) --ε,X/s--> (p,i)`
with `i = 1` iff `p` is accepting; symbol entries are skipped. -/
def addRuleTwo {α : Type} [DecidableEq α] (fin : List α) (C : APD (α × Nat))
    (t : PEntry α) : Except BuildErr (APD (α × Nat)) :=
  match t with
  | ((q, none, stack_symbol), (p, stack_push)) => do
      let i := if p ∈ fin then 1 else 0
      let C ← add_transition C (q, 1) (p, 1) none stack_symbol stack_push
      add_transition C (q, 0) (p, i) none stack_symbol stack_push
  | ((_, some _, _), _) => pure C

/-- The body of the rule (iii) loop for one source state `q`: for every
stack symbol without a source ε-transition on `(q, ε, X)`, add the ε jump
`(q,0) --ε,X/X--> (q,2)`. -/
def addRuleThree {α : Type} [DecidableEq α] (pts : List (PEntry α))
    (C : APD (α × Nat)) (q : α) (Xs : List Char) :
    Except BuildErr (APD (α × Nat)) :=
  Xs.foldlM (fun C stack_symbol =>
      if hasKey pts (q, none, stack_symbol) then pure C
      else add_transition C (q, 0) (q, 2) none stack_symbol [stack_symbol]) C

/-- `APDC.crear_automata_complemento`: three marked copies of every state,
the `(q, 2)` copies accepting; initial marker 1 iff the source's initial
state is accepting; alphabets copied; then transition rules (i)
(symbol reads from markers 1 and 2), (ii) (ε-moves from markers 1 and 0)
and (iii) (ε jump `(q,0) → (q,2)` re-pushing the stack top, for the
`(q, X)` pairs with no source ε-transition). -/
def crear_automata_complemento {α : Type} [DecidableEq α] (P : APD α) :
    Except BuildErr (APD (α × Nat)) := do
  let C0 := newAPD (α × Nat)
  let C1 ← P.states.foldlM addTripleStates C0
  let C2 ← match P.initial_state with
    | some q0 =>
        if q0 ∈ P.final_states then mark_initial_state C1 (q0, 1)
        else mark_initial_state C1 (q0, 0)
    | none =>
        -- Python builds the pair `(None, 0)`, which is never a registered
        -- state of `C`, so `mark_initial_state` raises.
        .error .unknownState
  let C3 := { C2 with input_alphabet := P.input_alphabet
                      stack_alphabet := P.stack_alphabet }
  let C4 := set_initial_stack_symbol C3 P.initial_stack_symbol
  let C5 ← P.transitions.foldlM (addRuleOne P.final_states) C4
  let C6 ← P.transitions.foldlM (addRuleTwo P.final_states) C5
  P.states.foldlM (fun C q => addRuleThree P.transitions C q P.stack_alphabet) C6

/-- The three marked copies of every source state, in construction
order. -/
def tripleStates {α : Type} (qs : List α) : List (α × Nat) :=
  qs.flatMap fun q => [(q, 0), (q, 1), (q, 2)]

/-- The accepting states of the complement: the `(q, 2)` copies. -/
def tripleFinals {α : Type} (qs : List α) : List (α × Nat) :=
  qs.map fun q => (q, 2)

/-- The transitions generated by rule (i) from the given source entries. -/
def ruleOneOf {α : Type} [DecidableEq α] (fin : List α) (ts : List (PEntry α)) :
    List (CEntry α) :=
  ts.flatMap fun t => match t with
    | ((q, some a, X), (p, push)) =>
        [(((q, 1), some a, X), ((p, if p ∈ fin then 1 else 0), push)),
         (((q, 2), some a, X), ((p, if p ∈ fin then 1 else 0), push))]
    | ((_, none, _), _) => []

/-- The transitions generated by rule (ii) from the given source entries. -/
def ruleTwoOf {α : Type} [DecidableEq α] (fin : List α) (ts : List (PEntry α)) :
    List (CEntry α) :=
  ts.flatMap fun t => match t with
    | ((q, none, X), (p, push)) =>
        [(((q, 1), none, X), ((p, 1), push)),
         (((q, 0), none, X), ((p, if p ∈ fin then 1 else 0), push))]
    | ((_, some _, _), _) => []

/-- The rule (iii) transitions for one source state. -/
def ruleThreeRow {α : Type} [DecidableEq α] (pts : List (PEntry α)) (q : α)
    (Xs : List Char) : List (CEntry α) :=
  (Xs.filter fun X => !hasKey pts (q, none, X)).map fun X =>
    (((q, 0), none, X), ((q, 2), ([X] : Str)))

/-- The transitions generated by rule (iii). -/
def ruleThreeOf {α : Type} [DecidableEq α] (pts : List (PEntry α)) (qs : List α)
    (Xs : List Char) : List (CEntry α) :=
  qs.flatMap fun q => ruleThreeRow pts q Xs

/-- The complement automaton that `crear_automata_complemento` produces on
a well-formed source with initial state `q0`. -/
def complementAPD {α : Type} [DecidableEq α] (P : APD α) (q0 : α) : APD (α × Nat) :=
  { states := tripleStates P.states
    initial_state := some (if q0 ∈ P.final_states then (q0, 1) else (q0, 0))
    final_states := tripleFinals P.states
    transitions := ruleOneOf P.final_states P.transitions
      ++ ruleTwoOf P.final_states P.transitions
      ++ ruleThreeOf P.transitions P.states P.stack_alphabet
    input_alphabet := P.input_alphabet
    stack_alphabet := setAdd P.stack_alphabet P.initial_stack_symbol
    initial_stack_symbol := P.initial_stack_symbol }

/-- The determinism invariant on a stored transition table: a key that
shares its `(state, stack_top)` pair with an ε-key is itself an ε-key. -/
def DetInvP {α : Type} (A : APD α) : Prop :=
  ∀ kv ∈ A.transitions, ∀ kv' ∈ A.transitions,
    kv.1.2.1 = none → kv'.1.1 = kv.1.1 → kv'.1.2.2 = kv.1.2.2 → kv'.1.2.1 = none

/-- Representation and builder invariants of a source automaton: its sets
and dict have no duplicates, transition endpoints are registered, every
stored symbol is in the matching alphabet, and the determinism invariant
holds.  All are maintained by the builder (Python sets and dicts cannot
hold duplicates). -/
def SourceWF {α : Type} (P : APD α) : Prop :=
  P.states.Nodup ∧
  P.stack_alphabet.Nodup ∧
  (P.transitions.map (·.1)).Nodup ∧
  (∀ kv ∈ P.transitions, kv.1.1 ∈ P.states ∧ kv.2.1 ∈ P.states) ∧
  (∀ kv ∈ P.transitions, ∀ c, kv.1.2.1 = some c → c ∈ P.input_alphabet) ∧
  (∀ kv ∈ P.transitions, kv.1.2.2 ∈ P.stack_alphabet ∧ ∀ x ∈ kv.2.2, x ∈ P.stack_alphabet) ∧
  DetInvP P

/-- Python `state.startswith("temp:")` (all states are strings here). -/
def strStartsWithTemp (s : Str) : Bool :=
  "temp:".data.isPrefixOf s

/-- Python `state.split(":")[-1]`: the segment after the last colon (the
whole string when there is none). -/
def afterLastColon (s : Str) : Str :=
  (s.reverse.takeWhile fun c => c ≠ ':').reverse

/-- Little-endian decimal digits of `n`, with fuel (`n ≤ fuel` suffices:
the value at least halves every step). -/
def natCharsAux : Nat → Nat → List Char
  | 0, _ => []
  | _ + 1, 0 => []
  | f + 1, n + 1 => Nat.digitChar ((n + 1) % 10) :: natCharsAux f ((n + 1) / 10)

/-- The decimal rendering `str(n)` used by the canonical labels
`f"q{i + 1}"`; only called with `n ≥ 1`. -/
def natChars (n : Nat) : Str :=
  (natCharsAux n n).reverse

/-- Numeric value of a digit character (proof helper for the injectivity
of the decimal rendering). -/
def digitVal (c : Char) : Nat :=
  c.toNat - '0'.toNat

/-- Value of a little-endian digit string (proof helper). -/
def littleVal : Str → Nat
  | [] => 0
  | c :: r => digitVal c + 10 * littleVal r

/-- The desired renaming `new_names` of `AP.normalize_states`: the initial
state (when marked) becomes `"q0"`, the remaining states (the set
difference, in registry order) take `f"q{i + 1}"` by `enumerate` index.
(The `state not in new_names` guard of the loop is always true: the only
prior key, the initial state, is excluded from the difference.) -/
def normalizeMapping (A : APD Str) : List (Str × Str) :=
  match A.initial_state with
  | some q0 => (q0, "q0".data) ::
      ((A.states.filter fun s => s ≠ q0).enum.map fun p => (p.2, 'q' :: natChars (p.1 + 1)))
  | none => A.states.enum.map fun p => (p.2, 'q' :: natChars (p.1 + 1))

/-- `del new_names[old_name]`: drop the pending rename with the given
source name (keys are unique). -/
def removeKey : List (Str × Str) → Str → List (Str × Str)
  | [], _ => []
  | e :: es, k => if e.1 = k then es else e :: removeKey es k

/-- The cycle-breaking ordering loop of `normalize_states`: pick the first
pending rename that is a no-op or whose target is no pending source; if
none exists, emit the first pending rename flagged for a temporary name.
Each iteration removes exactly one pending entry, so the loop runs exactly
`pending.length` times — the fuel below is exact, never exhausted early. -/
def orderRenamesAux : Nat → List (Str × Str) → List (Str × Str × Bool)
  | 0, _ => []
  | f + 1, pending =>
    match pending with
    | [] => []
    | e0 :: rest =>
      match pending.find? (fun e => decide (e.1 = e.2)
          || !(pending.any fun kv => decide (kv.1 = e.2))) with
      | some e => (e.1, e.2, false) :: orderRenamesAux f (removeKey pending e.1)
      | none => (e0.1, e0.2, true) :: orderRenamesAux f rest

/-- The ordered rename list (`ordered_new_names`). -/
def orderRenames (pending : List (Str × Str)) : List (Str × Str × Bool) :=
  orderRenamesAux pending.length pending

/-- Longest state-name length, bounding the `while new_name in self.states`
loop: each decoration grows the candidate by five characters. -/
def maxLen (l : List Str) : Nat :=
  l.foldr (fun s m => max s.length m) 0

/-- `while new_name in self.states: new_name = f"temp:{new_name}"`. -/
def freshTemp (states : List Str) (n : Str) : Str :=
  if n ∈ states then freshTemp states ("temp:".data ++ n) else n
termination_by maxLen states + 1 - n.length
decreasing_by
  rename_i hmem
  have hle : ∀ l : List Str, n ∈ l → n.length ≤ maxLen l := by
    intro l
    induction l with
    | nil => intro h; cases h
    | cons x xs ih =>
      intro h
      rcases List.mem_cons.mp h with rfl | h'
      · exact Nat.le_max_left _ _
      · exact Nat.le_trans (ih h') (Nat.le_max_right _ _)
  have h1 : n.length ≤ maxLen states := hle states hmem
  simp only [List.length_append]
  have h2 : (List.length ('t' :: 'e' :: 'm' :: 'p' :: ':' :: ([] : List Char))) = 5 := rfl
  omega

/-- `APD._rename_state_in_transitions`: rebuild the dict with the state
renamed at both endpoints of every entry. -/
def rename_state_in_transitions (A : APD Str) (old new : Str) : APD Str :=
  { A with transitions := A.transitions.map fun kv =>
      ((if kv.1.1 = old then new else kv.1.1, kv.1.2.1, kv.1.2.2),
        (if kv.2.1 = old then new else kv.2.1, kv.2.2)) }

/-- `AP._rename_state`: when the names differ, move the state in the
registry (set remove — `old` is present in every call the class makes —
then set add), the initial pointer and the accepting set, then rename it
in the transitions. -/
def rename_state (A : APD Str) (old new : Str) : APD Str :=
  if old = new then A
  else rename_state_in_transitions
    { A with
      states := setAdd (A.states.filter fun s => s ≠ old) new
      initial_state := if A.initial_state = some old then some new else A.initial_state
      final_states := if old ∈ A.final_states
        then setAdd (A.final_states.filter fun s => s ≠ old) new
        else A.final_states } old new

/-- Apply one ordered rename: a cycle-flagged entry first decorates its
target with `temp:` prefixes while it collides with a current state. -/
def applyRename (A : APD Str) (e : Str × Str × Bool) : APD Str :=
  rename_state A e.1 (if e.2.2 then freshTemp A.states e.2.1 else e.2.1)

/-- `AP.normalize_states`: compute the mapping, order it, apply the
renames, then strip the temporary names (iterating over a snapshot of the
state set, as `list(self.states)` does). -/
def normalize_states (A : APD Str) : APD Str :=
  let A1 := (orderRenames (normalizeMapping A)).foldl applyRename A
  A1.states.foldl (fun B s =>
    if strStartsWithTemp s then rename_state B s (afterLastColon s) else B) A1

/-- One transition entry with both endpoint states renamed. -/
def renKV (φ : Str → Str) (kv : (Str × Option Char × Char) × (Str × Str)) :
    (Str × Option Char × Char) × (Str × Str) :=
  ((φ kv.1.1, kv.1.2.1, kv.1.2.2), (φ kv.2.1, kv.2.2))

/-- `B` is `A` with every state renamed by `φ` (sets up to permutation —
Python sets are unordered — the dict entrywise in order). -/
def SimRel (φ : Str → Str) (A B : APD Str) : Prop :=
  B.states.Perm (A.states.map φ) ∧
  B.initial_state = A.initial_state.map φ ∧
  B.final_states.Perm (A.final_states.map φ) ∧
  B.transitions = A.transitions.map (renKV φ) ∧
  B.input_alphabet = A.input_alphabet ∧
  B.stack_alphabet = A.stack_alphabet ∧
  B.initial_stack_symbol = A.initial_stack_symbol

/-- Representation invariants of an automaton relevant to renaming: the
registry and accepting set are duplicate-free, accepting states and
transition endpoints are registered, and so is the initial state when
marked. -/
def WFren (A : APD Str) : Prop :=
  A.states.Nodup ∧
  A.final_states.Nodup ∧
  (∀ s ∈ A.final_states, s ∈ A.states) ∧
  (∀ kv ∈ A.transitions, kv.1.1 ∈ A.states ∧ kv.2.1 ∈ A.states) ∧
  (∀ q, A.initial_state = some q → q ∈ A.states)

/-- `SimRel` plus injectivity of the renaming on the source's states and
well-formedness of the target. -/
def GoodRen (φ : Str → Str) (A B : APD Str) : Prop :=
  SimRel φ A B ∧
  (∀ s ∈ A.states, ∀ t ∈ A.states, φ s = φ t → s = t) ∧
  WFren B

/-- Extract the automaton from a successful builder run (used only to name
the concrete automata below; each is proved to be the `.ok` result). -/
def getOk {α : Type} (d : APD α) : Except BuildErr (APD α) → APD α
  | .ok A => A
  | .error _ => d

/-- The continuous reference automaton for `{aⁿb | n ≥ 1}` with a trap
state, exactly as built in `test_complemento.test_complemento_lenguaje_simple`. -/
def buildPref : Except BuildErr (APD Str) := do
  let P := newAPD Str
  let P ← add_state P "q0".data false
  let P ← add_state P "q1".data false
  let P ← add_state P "q2".data true
  let P ← add_state P "trap".data false
  let P ← mark_initial_state P "q0".data
  let P := set_initial_stack_symbol P 'Z'
  let P ← add_transition P "q0".data "q1".data (some 'a') 'Z' "AZ".data
  let P ← add_transition P "q1".data "q1".data (some 'a') 'Z' "AZ".data
  let P ← add_transition P "q1".data "q1".data (some 'a') 'A' "AA".data
  let P ← add_transition P "q1".data "q2".data (some 'b') 'Z' "Z".data
  let P ← add_transition P "q1".data "q2".data (some 'b') 'A' "A".data
  let P ← add_transition P "q0".data "trap".data (some 'b') 'Z' "Z".data
  let P ← add_transition P "q2".data "trap".data (some 'a') 'Z' "Z".data
  let P ← add_transition P "q2".data "trap".data (some 'b') 'Z' "Z".data
  let P ← add_transition P "q2".data "trap".data (some 'a') 'A' "A".data
  let P ← add_transition P "q2".data "trap".data (some 'b') 'A' "A".data
  let P ← add_transition P "trap".data "trap".data (some 'a') 'Z' "Z".data
  let P ← add_transition P "trap".data "trap".data (some 'b') 'Z' "Z".data
  let P ← add_transition P "trap".data "trap".data (some 'a') 'A' "A".data
  let P ← add_transition P "trap".data "trap".data (some 'b') 'A' "A".data
  pure P

/-- The reference automaton (the successful result of `buildPref`). -/
def P_ref : APD Str := getOk (newAPD Str) buildPref

/-- The complement of the reference automaton. -/
def C_ref : APD (Str × Nat) :=
  getOk (newAPD (Str × Nat)) (crear_automata_complemento P_ref)

/-- A builder-built source automaton that is continuous in the documented
sense (every reachable configuration has an applicable move): one
non-accepting state with the ε-self-loop `(q0, ε, Z) → (q0, Z)`. -/
def buildPloop : Except BuildErr (APD Str) := do
  let P := newAPD Str
  let P ← add_state P "q0".data false
  let P ← mark_initial_state P "q0".data
  let P := set_initial_stack_symbol P 'Z'
  add_transition P "q0".data "q0".data none 'Z' "Z".data

/-- The ε-looping continuous automaton (the successful result of
`buildPloop`). -/
def P_loop : APD Str := getOk (newAPD Str) buildPloop

/-- The complement construction applied to `P_loop`. -/
def C_loop : APD (Str × Nat) :=
  getOk (newAPD (Str × Nat)) (crear_automata_complemento P_loop)

/-- A one-state builder-built automaton used to exercise `accepts` with an
unrecognized acceptance mode. -/
def buildTiny : Except BuildErr (APD Str) := do
  let P := newAPD Str
  let P ← add_state P "q0".data true
  let P ← mark_initial_state P "q0".data
  pure (set_initial_stack_symbol P 'Z')

/-- The tiny automaton (the successful result of `buildTiny`). -/
def T_tiny : APD Str := getOk (newAPD Str) buildTiny

/-- The configuration sequence of the single deterministic run: `runCfg A c n`
is the configuration after `n` applications of `step` from `c`, or `none`
once the run is stuck. -/
def runCfg {α : Type} [DecidableEq α] (A : APD α) (c : α × Str × Str) :
    Nat → Option (α × Str × Str)
  | 0 => some c
  | n + 1 => (runCfg A c n).bind fun x => step A x.1 x.2.1 x.2.2

/-- Modelled from the spec (§3 "Continuity", glossary): a configuration is
reachable when the run from some initial configuration over a word of the
input alphabet passes through it.  The source never defines continuity in
code (it is an unchecked caller obligation of the complement
constructor). -/
def ReachableCfg {α : Type} [DecidableEq α] (A : APD α) (c : α × Str × Str) : Prop :=
  ∃ q0 w n, A.initial_state = some q0 ∧ (∀ ch ∈ w, ch ∈ A.input_alphabet) ∧
    runCfg A (q0, w, [A.initial_stack_symbol]) n = some c

/-- Modelled from the spec (§3 "Continuity", glossary): every reachable
configuration has at least one applicable transition. -/
def ContinuousAPD {α : Type} [DecidableEq α] (A : APD α) : Prop :=
  ∀ c, ReachableCfg A c → (step A c.1 c.2.1 c.2.2).isSome = true

/-- All words of length exactly `n` over the alphabet `{a, b}`. -/
def wordsOfLen : Nat → List Str
  | 0 => [[]]
  | n + 1 => (wordsOfLen n).flatMap fun w => ['a' :: w, 'b' :: w]

/-- All words of length at most `n` over the alphabet `{a, b}`. -/
def wordsUpTo (n : Nat) : List Str :=
  (List.range (n + 1)).flatMap wordsOfLen

/-- The single-state renaming function underlying `_rename_state`. -/
def ren1 (old new : Str) : Str → Str := fun s => if s = old then new else s

/-- An automaton whose induced normalization mapping is a full 2-cycle: the
initial state `"q1"` must become `"q0"` and the other state `"q0"` must
become `"q1"`. -/
def W_cyc : APD Str :=
  { states := ["q1".data, "q0".data]
    initial_state := some "q1".data
    final_states := ["q1".data]
    transitions := [(("q1".data, some 'a', 'Z'), ("q0".data, ['Z']))]
    input_alphabet := ['a']
    stack_alphabet := ['Z']
    initial_stack_symbol := 'Z' }

/-- The invariant carried by every builder-produced automaton: renaming
well-formedness, duplicate-free transition keys, stored symbols in the
input alphabet, and the determinism invariant. -/
def BInv (A : APD Str) : Prop :=
  WFren A ∧
  (A.transitions.map (·.1)).Nodup ∧
  (∀ kv ∈ A.transitions, ∀ c, kv.1.2.1 = some c → c ∈ A.input_alphabet) ∧
  DetInvP A

/-- The automata constructible through the builder interface: start from
`AP.__init__` and apply any sequence of successful `add_state`,
`mark_initial_state`, `set_initial_stack_symbol`, `add_transition` and
`normalize_states` calls. -/
inductive Built : APD Str → Prop where
  | init : Built (newAPD Str)
  | addState {A A' : APD Str} {s : Str} {f : Bool} :
      Built A → add_state A s f = .ok A' → Built A'
  | markInitial {A A' : APD Str} {s : Str} :
      Built A → mark_initial_state A s = .ok A' → Built A'
  | setStack {A : APD Str} {c : Char} :
      Built A → Built (set_initial_stack_symbol A c)
  | addTrans {A A' : APD Str} {s ns : Str} {isym : Option Char} {top : Char} {push : Str} :
      Built A → add_transition A s ns isym top push = .ok A' → Built A'
  | normalize {A : APD Str} : Built A → Built (normalize_states A)

/-! ## Helper lemmas about the run of the engine -/

theorem runCfg_stuck {α : Type} [DecidableEq α] (A : APD α) (s : α) (r st : Str)
    (h : step A s r st = none) : ∀ k, runCfg A (s, r, st) (k + 1) = none := by
  intro k
  induction k with
  | zero => simp [runCfg, h]
  | succ k ih =>
    show (runCfg A (s, r, st) (k + 1)).bind _ = none
    rw [ih]
    rfl

theorem runCfg_shift {α : Type} [DecidableEq α] (A : APD α) (s : α) (r st : Str)
    (s' : α) (r' st' : Str) (h : step A s r st = some (s', r', st')) :
    ∀ k, runCfg A (s, r, st) (k + 1) = runCfg A (s', r', st') k := by
  intro k
  induction k with
  | zero => simp [runCfg, h]
  | succ k ih =>
    show (runCfg A (s, r, st) (k + 1)).bind _ = (runCfg A (s', r', st') k).bind _
    rw [ih]

theorem acceptsFrom_iff {α : Type} [DecidableEq α] (A : APD α) (mode : String) :
    ∀ (fuel : Nat) (s : α) (r st : Str),
    acceptsFrom A mode fuel s r st = true ↔
      ∃ k, k ≤ fuel ∧ ∃ cfg, runCfg A (s, r, st) k = some cfg ∧
        acceptCond A mode cfg.1 cfg.2.1 cfg.2.2 = true := by
  intro fuel
  induction fuel with
  | zero =>
    intro s r st
    constructor
    · intro h
      exact ⟨0, Nat.le_refl 0, (s, r, st), rfl, h⟩
    · rintro ⟨k, hk, cfg, hrun, hacc⟩
      obtain rfl : k = 0 := Nat.le_zero.mp hk
      simp only [runCfg, Option.some.injEq] at hrun
      subst hrun
      exact hacc
  | succ fuel ih =>
    intro s r st
    by_cases hc : acceptCond A mode s r st = true
    · constructor
      · intro _
        exact ⟨0, Nat.zero_le _, (s, r, st), rfl, hc⟩
      · intro _
        simp [acceptsFrom, hc]
    · cases hstep : step A s r st with
      | none =>
        constructor
        · intro h
          simp [acceptsFrom, hstep, hc] at h
        · rintro ⟨k, hk, cfg, hrun, hacc⟩
          cases k with
          | zero =>
            simp only [runCfg, Option.some.injEq] at hrun
            subst hrun
            exact absurd hacc hc
          | succ k =>
            rw [runCfg_stuck A s r st hstep k] at hrun
            exact absurd hrun (by simp)
      | some c' =>
        obtain ⟨s', r', st'⟩ := c'
        have hstep' : acceptsFrom A mode (fuel + 1) s r st = acceptsFrom A mode fuel s' r' st' := by
          simp [acceptsFrom, hc, hstep]
        rw [hstep', ih]
        constructor
        · rintro ⟨k, hk, cfg, hrun, hacc⟩
          refine ⟨k + 1, Nat.succ_le_succ hk, cfg, ?_, hacc⟩
          rw [runCfg_shift A s r st s' r' st' hstep k]
          exact hrun
        · rintro ⟨k, hk, cfg, hrun, hacc⟩
          cases k with
          | zero =>
            simp only [runCfg, Option.some.injEq] at hrun
            subst hrun
            exact absurd hacc hc
          | succ k =>
            rw [runCfg_shift A s r st s' r' st' hstep k] at hrun
            exact ⟨k, Nat.le_of_succ_le_succ hk, cfg, hrun, hacc⟩

/-! ## Claim theorems: execution engine -/

/-- C4: `accepts` evaluates the mode's acceptance predicate on every
configuration of the single deterministic run, the initial one included,
accepting as soon as it holds within the step bound
`len(word) * 100 + 1000`; a stuck run adds no further configuration
(the final re-check repeats the last evaluation), and if no configuration
within the bound satisfies the predicate — in particular when the run
exceeds the bound — the word is rejected. -/
theorem C4_accepts_trace_characterization {α : Type} [DecidableEq α]
    (A : APD α) (w : Str) (mode : String) (q0 : α)
    (h : A.initial_state = some q0) :
    (accepts A w mode = true ↔
      ∃ k, k ≤ w.length * 100 + 1000 ∧ ∃ cfg,
        runCfg A (q0, w, [A.initial_stack_symbol]) k = some cfg ∧
        acceptCond A mode cfg.1 cfg.2.1 cfg.2.2 = true)
    ∧ ((∀ k cfg, k ≤ w.length * 100 + 1000 →
          runCfg A (q0, w, [A.initial_stack_symbol]) k = some cfg →
          acceptCond A mode cfg.1 cfg.2.1 cfg.2.2 = false) →
        accepts A w mode = false) := by
  have hmain : accepts A w mode
      = acceptsFrom A mode (w.length * 100 + 1000) q0 w [A.initial_stack_symbol] := by
    simp [accepts, h]
  constructor
  · rw [hmain]
    exact acceptsFrom_iff A mode _ q0 w [A.initial_stack_symbol]
  · intro hall
    rw [hmain]
    cases hb : acceptsFrom A mode (w.length * 100 + 1000) q0 w [A.initial_stack_symbol] with
    | false => rfl
    | true =>
      obtain ⟨k, hk, cfg, hrun, hacc⟩ :=
        (acceptsFrom_iff A mode _ q0 w [A.initial_stack_symbol]).mp hb
      rw [hall k cfg hk hrun] at hacc
      cases hacc

/-- Witness for C4 at the tiny automaton and the empty word. -/
theorem C4_witness :
    T_tiny.initial_state = some "q0".data ∧
    ((accepts T_tiny ([] : Str) "final_state" = true ↔
      ∃ k, k ≤ ([] : Str).length * 100 + 1000 ∧ ∃ cfg,
        runCfg T_tiny ("q0".data, ([] : Str), [T_tiny.initial_stack_symbol]) k = some cfg ∧
        acceptCond T_tiny "final_state" cfg.1 cfg.2.1 cfg.2.2 = true)
    ∧ ((∀ k cfg, k ≤ ([] : Str).length * 100 + 1000 →
          runCfg T_tiny ("q0".data, ([] : Str), [T_tiny.initial_stack_symbol]) k = some cfg →
          acceptCond T_tiny "final_state" cfg.1 cfg.2.1 cfg.2.2 = false) →
        accepts T_tiny ([] : Str) "final_state" = false)) :=
  ⟨rfl, C4_accepts_trace_characterization T_tiny [] "final_state" "q0".data rfl⟩

/-- Helper: for a mode other than the two named ones the acceptance
predicate never holds. -/
theorem acceptCond_unknown_mode {α : Type} [DecidableEq α] (A : APD α)
    (mode : String) (h1 : mode ≠ "final_state") (h2 : mode ≠ "empty_stack")
    (s : α) (r st : Str) : acceptCond A mode s r st = false := by
  simp [acceptCond, h1, h2]

/-- C5 (amended): with an unrecognized acceptance mode, `accepts` raises
nothing; both acceptance checks are skipped at every configuration and the
word is rejected: the call returns `False` for every word. -/
theorem C5_amended_unknown_mode_returns_false {α : Type} [DecidableEq α]
    (A : APD α) (w : Str) (mode : String)
    (h1 : mode ≠ "final_state") (h2 : mode ≠ "empty_stack") :
    accepts A w mode = false := by
  cases hi : A.initial_state with
  | none => simp [accepts, hi]
  | some q0 =>
    simp only [accepts, hi]
    cases hb : acceptsFrom A mode (w.length * 100 + 1000) q0 w [A.initial_stack_symbol] with
    | false => rfl
    | true =>
      obtain ⟨k, hk, cfg, hrun, hacc⟩ :=
        (acceptsFrom_iff A mode _ q0 w [A.initial_stack_symbol]).mp hb
      rw [acceptCond_unknown_mode A mode h1 h2 cfg.1 cfg.2.1 cfg.2.2] at hacc
      cases hacc

/-- Witness for the amended C5: the tiny automaton, mode `"bogus"`. -/
theorem C5_amended_witness :
    ("bogus" ≠ "final_state" ∧ "bogus" ≠ "empty_stack") ∧
    accepts T_tiny ['a'] "bogus" = false :=
  ⟨⟨by decide, by decide⟩,
    C5_amended_unknown_mode_returns_false T_tiny ['a'] "bogus" (by decide) (by decide)⟩

/-- C5 counterexample: on the builder-built tiny automaton, `accepts` with
the unrecognized mode `"bogus"` does not raise `UnknownAcceptanceModeError`
(no raise site exists on this path in `APD.accepts`): the call returns the
ordinary boolean `False`, for the empty word as for a nonempty one — even
though the word would be accepted under `"final_state"`. -/
theorem C5_counterexample_no_error_raised :
    buildTiny = Except.ok T_tiny ∧
    accepts T_tiny [] "final_state" = true ∧
    accepts T_tiny [] "bogus" = false ∧
    accepts T_tiny ['a'] "bogus" = false := by
  refine ⟨rfl, by decide, by decide, by decide⟩

/-- C6: with both endpoints registered, `add_transition` reports a
determinism conflict exactly when the exact key is taken, a
symbol-insertion meets an existing ε-transition on the same
`(state, stack_top)`, or an ε-insertion meets an existing
symbol-transition there (the code scans the input alphabet for the last
check, which loses nothing as every stored symbol key's symbol is in the
alphabet); otherwise the insertion succeeds. -/
theorem C6_add_transition_conflict_iff {α : Type} [DecidableEq α]
    (A : APD α) (s ns : α) (isym : Option Char) (top : Char) (push : Str)
    (hs : s ∈ A.states) (hns : ns ∈ A.states)
    (halpha : ∀ kv ∈ A.transitions, ∀ c, kv.1.2.1 = some c → c ∈ A.input_alphabet) :
    (add_transition A s ns isym top push = .error .nonDetConflict ↔
      (hasKey A.transitions (s, isym, top) = true
        ∨ (∃ c, isym = some c ∧ hasKey A.transitions (s, none, top) = true)
        ∨ (isym = none ∧ ∃ c, hasKey A.transitions (s, some c, top) = true)))
    ∧ (add_transition A s ns isym top push = .ok (addTransitionT A s ns isym top push)
        ∨ add_transition A s ns isym top push = .error .nonDetConflict) := by
  have halpha' : ∀ c, hasKey A.transitions (s, some c, top) = true → c ∈ A.input_alphabet := by
    intro c hc
    simp only [hasKey, List.any_eq_true, decide_eq_true_eq] at hc
    obtain ⟨kv, hkv, hkey⟩ := hc
    exact halpha kv hkv c (by rw [hkey])
  cases isym with
  | some c =>
    by_cases hex : hasKey A.transitions (s, some c, top) = true
    · constructor
      · simp [add_transition, hs, hns, hex]
      · simp [add_transition, hs, hns, hex]
    · by_cases heps : hasKey A.transitions (s, none, top) = true
      · constructor
        · simp [add_transition, hs, hns, hex, heps]
        · simp [add_transition, hs, hns, hex, heps]
      · constructor
        · constructor
          · intro h
            simp [add_transition, hs, hns, hex, heps] at h
          · rintro (h | ⟨c', hc', h⟩ | ⟨h, _⟩)
            · exact absurd h hex
            · cases hc'; exact absurd h heps
            · cases h
        · left
          simp [add_transition, hs, hns, hex, heps]
  | none =>
    by_cases hex : hasKey A.transitions (s, none, top) = true
    · constructor
      · simp [add_transition, hs, hns, hex]
      · simp [add_transition, hs, hns, hex]
    · by_cases hsym : ∃ c, hasKey A.transitions (s, some c, top) = true
      · obtain ⟨c, hc⟩ := hsym
        have hany : (A.input_alphabet.any fun symbol =>
            hasKey A.transitions (s, some symbol, top)) = true := by
          simp only [List.any_eq_true]
          exact ⟨c, halpha' c hc, hc⟩
        constructor
        · constructor
          · intro _
            exact Or.inr (Or.inr ⟨rfl, c, hc⟩)
          · intro _
            simp [add_transition, hs, hns, hex, hany]
        · right
          simp [add_transition, hs, hns, hex, hany]
      · have hany : (A.input_alphabet.any fun symbol =>
            hasKey A.transitions (s, some symbol, top)) = false := by
          simp only [List.any_eq_false]
          intro c _
          simp only [not_exists] at hsym
          simp [hsym c]
        constructor
        · constructor
          · intro h
            simp [add_transition, hs, hns, hex, hany] at h
          · rintro (h | ⟨c', hc', h⟩ | ⟨_, c', h⟩)
            · exact absurd h hex
            · cases hc'
            · exact absurd ⟨c', h⟩ hsym
        · left
          simp [add_transition, hs, hns, hex, hany]

/-- Witness for C6: adding a symbol-transition over an existing
ε-transition on the same `(state, stack_top)` in `P_loop` is reported as a
conflict, and an insertion on a fresh stack top succeeds. -/
theorem C6_witness :
    ("q0".data ∈ P_loop.states ∧ "q0".data ∈ P_loop.states) ∧
    (add_transition P_loop "q0".data "q0".data (some 'a') 'Z' "Z".data
        = .error .nonDetConflict ↔
      (hasKey P_loop.transitions ("q0".data, some 'a', 'Z') = true
        ∨ (∃ c, (some 'a' : Option Char) = some c ∧
            hasKey P_loop.transitions ("q0".data, none, 'Z') = true)
        ∨ ((some 'a' : Option Char) = none ∧
            ∃ c, hasKey P_loop.transitions ("q0".data, some c, 'Z') = true))) :=
  ⟨⟨by decide, by decide⟩,
    (C6_add_transition_conflict_iff P_loop "q0".data "q0".data (some 'a') 'Z' "Z".data
      (by decide) (by decide) (by decide)).1⟩

/-- C7: `step` makes no move on an empty stack; with `top` the last stack
element it first tries the transition on the first input symbol, then the
ε-transition, popping `top` and appending the reversed push string so that
the push string's first character becomes the new top; in particular
pushing `"AZ"` over top `'Z'` leaves `'A'` on top with `'Z'` beneath. -/
theorem C7_step_stack_discipline {α : Type} [DecidableEq α] (A : APD α)
    (s p : α) (c : Char) (inp rest : Str) (top : Char) (push : Str) :
    (step A s inp [] = none)
    ∧ (get_transition A s (some c) top = some (p, push) →
        step A s (c :: inp) (rest ++ [top]) = some (p, inp, rest ++ push.reverse))
    ∧ (get_transition A s (some c) top = none →
        get_transition A s none top = some (p, push) →
        step A s (c :: inp) (rest ++ [top]) = some (p, c :: inp, rest ++ push.reverse))
    ∧ (get_transition A s none top = some (p, push) →
        step A s [] (rest ++ [top]) = some (p, [], rest ++ push.reverse))
    ∧ (get_transition A s (some c) top = none →
        get_transition A s none top = none →
        step A s (c :: inp) (rest ++ [top]) = none)
    ∧ (get_transition A s none top = none →
        step A s [] (rest ++ [top]) = none)
    ∧ (get_transition A s (some c) 'Z' = some (p, ['A', 'Z']) →
        step A s (c :: inp) (rest ++ ['Z']) = some (p, inp, rest ++ ['Z', 'A'])) := by
  refine ⟨?_, ?_, ?_, ?_, ?_, ?_, ?_⟩
  · simp [step]
  · intro h
    simp [step, List.getLast?_concat, List.dropLast_concat, h]
  · intro h1 h2
    simp [step, List.getLast?_concat, List.dropLast_concat, h1, h2]
  · intro h
    simp [step, List.getLast?_concat, List.dropLast_concat, h]
  · intro h1 h2
    simp [step, List.getLast?_concat, List.dropLast_concat, h1, h2]
  · intro h
    simp [step, List.getLast?_concat, List.dropLast_concat, h]
  · intro h
    simp [step, List.getLast?_concat, List.dropLast_concat, h]

/-- Witness for C7 at the reference automaton: reading `'a'` in `"q0"` with
top `'Z'` pushes `"AZ"`, leaving `'A'` on top of `'Z'`; the ε-branch and
the no-move branch are exercised as well. -/
theorem C7_witness :
    (get_transition P_ref "q0".data (some 'a') 'Z' = some ("q1".data, "AZ".data) ∧
      step P_ref "q0".data ('a' :: 'b' :: []) (['X'] ++ ['Z'])
        = some ("q1".data, ['b'], ['X'] ++ ['Z', 'A'])) ∧
    (step P_ref "q0".data ['a'] [] = none) ∧
    (get_transition P_loop "q0".data none 'Z' = some ("q0".data, "Z".data) ∧
      step P_loop "q0".data [] (([] : Str) ++ ['Z'])
        = some ("q0".data, [], ([] : Str) ++ "Z".data.reverse)) := by
  refine ⟨⟨by decide, ?_⟩, ?_, ⟨by decide, ?_⟩⟩
  · exact (C7_step_stack_discipline P_ref "q0".data "q1".data 'a' ['b'] ['X'] 'Z'
      "AZ".data).2.2.2.2.2.2 (by decide)
  · exact (C7_step_stack_discipline P_ref "q0".data "q0".data 'a' [] [] 'Z' []).1
  · exact (C7_step_stack_discipline P_loop "q0".data "q0".data 'a' [] [] 'Z'
      "Z".data).2.2.2.1 (by decide)

/-! ## Claim C1: complement correctness -/

theorem P_loop_run_fixed :
    ∀ n c, runCfg P_loop ("q0".data, ([] : Str), ['Z']) n = some c →
      c = ("q0".data, ([] : Str), ['Z']) := by
  intro n
  induction n with
  | zero =>
    intro c hc
    simpa [runCfg] using hc.symm
  | succ n ih =>
    intro c hc
    show c = ("q0".data, ([] : Str), ['Z'])
    have hc' : (runCfg P_loop ("q0".data, ([] : Str), ['Z']) n).bind
        (fun x => step P_loop x.1 x.2.1 x.2.2) = some c := hc
    cases hr : runCfg P_loop ("q0".data, ([] : Str), ['Z']) n with
    | none => rw [hr] at hc'; cases hc'
    | some c' =>
      rw [hr] at hc'
      rw [ih c' hr] at hc'
      have hstep : step P_loop "q0".data ([] : Str) ['Z']
          = some ("q0".data, ([] : Str), ['Z']) := by decide
      have h2 : step P_loop "q0".data ([] : Str) ['Z'] = some c := hc'
      rw [hstep] at h2
      injection h2 with h3
      exact h3.symm

theorem P_loop_continuous : ContinuousAPD P_loop := by
  rintro c ⟨q0, w, n, hq0, hw, hrun⟩
  have hq : q0 = "q0".data := by
    have : P_loop.initial_state = some ("q0".data) := by decide
    rw [this] at hq0
    injection hq0 with h
    exact h.symm
  have hwnil : w = [] := by
    cases w with
    | nil => rfl
    | cons a t =>
      have ha := hw a (by simp)
      have : P_loop.input_alphabet = [] := by decide
      rw [this] at ha
      cases ha
  have hz : P_loop.initial_stack_symbol = 'Z' := by decide
  rw [hq, hwnil, hz] at hrun
  rw [P_loop_run_fixed n c hrun]
  decide

/-- C1 counterexample: `P_loop` is built via the builder and is continuous
in the documented sense (its one reachable configuration always has an
ε-move), its single state is not accepting, so `P_loop` rejects the empty
word — yet its complement `C_loop` inherits the ε-loop at marker 0, never
reaches an accepting `(q, 2)` state, and rejects the empty word as well,
contradicting `C.accepts(w) == not P.accepts(w)`. -/
theorem C1_counterexample_continuous_eps_loop :
    buildPloop = Except.ok P_loop ∧
    crear_automata_complemento P_loop = Except.ok C_loop ∧
    ContinuousAPD P_loop ∧
    accepts P_loop [] "final_state" = false ∧
    accepts C_loop [] "final_state" = false :=
  ⟨rfl, rfl, P_loop_continuous, by decide, by decide⟩

/-- C1 (amended): for the reference automaton `P_ref` recognizing
`{aⁿb | n ≥ 1}` built with a trap state, the complement `C_ref` satisfies
`C.accepts(w) == not P.accepts(w)` under final-state acceptance for every
word over `{a, b}` of length at most 5; in particular `P` accepts `"ab"`
and `C` rejects it, `P` rejects `""` and `C` accepts it, and `P` rejects
`"aabb"` and `C` accepts it.  (The unrestricted claim over all continuous
source automata fails; see the counterexample.) -/
theorem C1_amended_reference_complement :
    buildPref = Except.ok P_ref ∧
    crear_automata_complemento P_ref = Except.ok C_ref ∧
    accepts P_ref "ab".data "final_state" = true ∧
    accepts C_ref "ab".data "final_state" = false ∧
    accepts P_ref [] "final_state" = false ∧
    accepts C_ref [] "final_state" = true ∧
    accepts P_ref "aabb".data "final_state" = false ∧
    accepts C_ref "aabb".data "final_state" = true ∧
    ((wordsUpTo 5).all fun w =>
      accepts C_ref w "final_state" = !accepts P_ref w "final_state") = true :=
  ⟨rfl, rfl, by decide, by decide, by decide, by decide, by decide, by decide, by decide⟩

/-! ## Helper lemmas for the complement construction -/

theorem setAdd_of_mem {β : Type} [DecidableEq β] {l : List β} {x : β}
    (h : x ∈ l) : setAdd l x = l := by
  simp [setAdd, h]

theorem mem_setAdd_of_mem {β : Type} [DecidableEq β] {l : List β} {x : β}
    (y : β) (h : x ∈ l) : x ∈ setAdd l y := by
  unfold setAdd
  split
  · exact h
  · exact List.mem_append_left _ h

theorem foldl_setAdd_of_subset {β : Type} [DecidableEq β] :
    ∀ (xs l : List β), (∀ x ∈ xs, x ∈ l) → xs.foldl setAdd l = l := by
  intro xs
  induction xs with
  | nil => intro l _; rfl
  | cons x rest ih =>
    intro l h
    show (rest.foldl setAdd (setAdd l x)) = l
    rw [setAdd_of_mem (h x (by simp))]
    exact ih l fun y hy => h y (by simp [hy])

theorem hasKey_append {α : Type} [DecidableEq α]
    (l1 l2 : List ((α × Option Char × Char) × (α × Str)))
    (k : α × Option Char × Char) :
    hasKey (l1 ++ l2) k = (hasKey l1 k || hasKey l2 k) := by
  simp [hasKey]

theorem hasKey_false_iff {α : Type} [DecidableEq α]
    (l : List ((α × Option Char × Char) × (α × Str)))
    (k : α × Option Char × Char) :
    hasKey l k = false ↔ ∀ kv ∈ l, kv.1 ≠ k := by
  simp [hasKey]

theorem hasKey_true_iff {α : Type} [DecidableEq α]
    (l : List ((α × Option Char × Char) × (α × Str)))
    (k : α × Option Char × Char) :
    hasKey l k = true ↔ ∃ kv ∈ l, kv.1 = k := by
  simp [hasKey]

theorem mem_tripleStates {α : Type} {qs : List α} {q : α} {i : Nat} :
    (q, i) ∈ tripleStates qs ↔ q ∈ qs ∧ (i = 0 ∨ i = 1 ∨ i = 2) := by
  simp only [tripleStates, List.mem_flatMap]
  constructor
  · rintro ⟨a, ha, hmem⟩
    simp only [List.mem_cons, List.mem_singleton, List.not_mem_nil] at hmem
    rcases hmem with h | h | h | h
    · exact ⟨by rw [(Prod.mk.injEq ..).mp h |>.1]; exact ha,
        Or.inl ((Prod.mk.injEq ..).mp h).2⟩
    · exact ⟨by rw [(Prod.mk.injEq ..).mp h |>.1]; exact ha,
        Or.inr (Or.inl ((Prod.mk.injEq ..).mp h).2)⟩
    · exact ⟨by rw [(Prod.mk.injEq ..).mp h |>.1]; exact ha,
        Or.inr (Or.inr ((Prod.mk.injEq ..).mp h).2)⟩
    · cases h
  · rintro ⟨hq, hi⟩
    refine ⟨q, hq, ?_⟩
    rcases hi with rfl | rfl | rfl <;> simp

theorem tripleStates_cons {α : Type} (q : α) (rest : List α) :
    tripleStates (q :: rest) = [(q, 0), (q, 1), (q, 2)] ++ tripleStates rest := rfl

theorem tripleFinals_cons {α : Type} (q : α) (rest : List α) :
    tripleFinals (q :: rest) = [(q, 2)] ++ tripleFinals rest := rfl

theorem addTransitionT_eq {α : Type} [DecidableEq α] (A : APD α) (s ns : α)
    (isym : Option Char) (top : Char) (push : Str)
    (hin : ∀ c, isym = some c → c ∈ A.input_alphabet)
    (htop : top ∈ A.stack_alphabet)
    (hpush : ∀ x ∈ push, x ∈ A.stack_alphabet) :
    addTransitionT A s ns isym top push
      = { A with transitions := A.transitions ++ [((s, isym, top), (ns, push))] } := by
  have hsa : push.foldl setAdd (setAdd A.stack_alphabet top) = A.stack_alphabet := by
    rw [setAdd_of_mem htop]
    exact foldl_setAdd_of_subset push A.stack_alphabet hpush
  cases isym with
  | none =>
    unfold addTransitionT
    rw [hsa]
  | some c =>
    unfold addTransitionT
    rw [hsa]
    rw [show (match some c with
      | some c => setAdd A.input_alphabet c
      | none => A.input_alphabet) = setAdd A.input_alphabet c from rfl]
    rw [setAdd_of_mem (hin c rfl)]

theorem add_transition_sym_ok {α : Type} [DecidableEq α] (A : APD α)
    (s ns : α) (c : Char) (top : Char) (push : Str)
    (hs : s ∈ A.states) (hns : ns ∈ A.states)
    (hkey : hasKey A.transitions (s, some c, top) = false)
    (heps : hasKey A.transitions (s, none, top) = false) :
    add_transition A s ns (some c) top push
      = .ok (addTransitionT A s ns (some c) top push) := by
  simp [add_transition, hs, hns, hkey, heps]

theorem add_transition_eps_ok {α : Type} [DecidableEq α] (A : APD α)
    (s ns : α) (top : Char) (push : Str)
    (hs : s ∈ A.states) (hns : ns ∈ A.states)
    (hkey : hasKey A.transitions (s, none, top) = false)
    (hnosym : ∀ c, hasKey A.transitions (s, some c, top) = false) :
    add_transition A s ns none top push
      = .ok (addTransitionT A s ns none top push) := by
  have hany : (A.input_alphabet.any fun symbol =>
      hasKey A.transitions (s, some symbol, top)) = false := by
    simp only [List.any_eq_false]
    intro x _
    simp [hnosym x]
  simp [add_transition, hs, hns, hkey, hany]

theorem exceptOkBind {γ δ : Type} (a : γ) (f : γ → Except BuildErr δ) :
    (Except.ok a >>= f : Except BuildErr δ) = f a := rfl

theorem statesPhase {α : Type} [DecidableEq α] :
    ∀ (qs : List α) (C : APD (α × Nat)), qs.Nodup →
    (∀ q ∈ qs, ∀ i : Nat, (q, i) ∉ C.states) →
    qs.foldlM addTripleStates C
      = .ok { C with states := C.states ++ tripleStates qs
                     final_states := C.final_states ++ tripleFinals qs } := by
  intro qs
  induction qs with
  | nil =>
    intro C _ _
    show Except.ok C = _
    simp [tripleStates, tripleFinals]
  | cons q rest ih =>
    intro C hnd hfresh
    have h0 : (q, 0) ∉ C.states := hfresh q (by simp) 0
    have h1 : (q, 1) ∉ C.states := hfresh q (by simp) 1
    have h2 : (q, 2) ∉ C.states := hfresh q (by simp) 2
    have e0 : add_state C (q, 0) false
        = Except.ok { C with states := C.states ++ [(q, 0)] } := by
      simp [add_state, h0]
    have e1 : add_state { C with states := C.states ++ [(q, 0)] } (q, 1) false
        = Except.ok { C with states := (C.states ++ [(q, 0)]) ++ [(q, 1)] } := by
      have h1' : (q, 1) ∉ C.states ++ [(q, 0)] := by simp [h1]
      simp [add_state, h1']
    have e2 : add_state { C with states := (C.states ++ [(q, 0)]) ++ [(q, 1)] } (q, 2) true
        = Except.ok { C with
            states := ((C.states ++ [(q, 0)]) ++ [(q, 1)]) ++ [(q, 2)]
            final_states := C.final_states ++ [(q, 2)] } := by
      simp [add_state, h2]
    have hstep : addTripleStates C q = .ok { C with
        states := C.states ++ [(q, 0), (q, 1), (q, 2)]
        final_states := C.final_states ++ [(q, 2)] } := by
      show (add_state C (q, 0) false >>= fun C => add_state C (q, 1) false >>=
        fun C => add_state C (q, 2) true) = _
      rw [e0, exceptOkBind, e1, exceptOkBind, e2]
      simp [List.append_assoc]
    rw [List.foldlM_cons, hstep, exceptOkBind]
    rw [ih _ (List.nodup_cons.mp hnd).2 ?fresh]
    case fresh =>
      intro q' hq' i
      have hq'ne : q' ≠ q := by
        rintro rfl
        exact (List.nodup_cons.mp hnd).1 hq'
      simp [hfresh q' (by simp [hq']) i, hq'ne]
    rw [tripleStates_cons, tripleFinals_cons]
    simp [List.append_assoc]

theorem ruleOnePhase {α : Type} [DecidableEq α] (fin : List α) :
    ∀ (ts : List (PEntry α)) (C : APD (α × Nat)),
    (ts.map (·.1)).Nodup →
    (∀ t ∈ ts, (t.1.1, 1) ∈ C.states ∧ (t.1.1, 2) ∈ C.states) →
    (∀ t ∈ ts, (t.2.1, 0) ∈ C.states ∧ (t.2.1, 1) ∈ C.states) →
    (∀ t ∈ ts, ∀ m : Nat, hasKey C.transitions ((t.1.1, m), t.1.2.1, t.1.2.2) = false) →
    (∀ t ∈ ts, ∀ m : Nat, hasKey C.transitions ((t.1.1, m), none, t.1.2.2) = false) →
    (∀ t ∈ ts, ∀ c, t.1.2.1 = some c → c ∈ C.input_alphabet) →
    (∀ t ∈ ts, t.1.2.2 ∈ C.stack_alphabet ∧ ∀ x ∈ t.2.2, x ∈ C.stack_alphabet) →
    ts.foldlM (addRuleOne fin) C
      = .ok { C with transitions := C.transitions ++ ruleOneOf fin ts } := by
  intro ts
  induction ts with
  | nil =>
    intro C _ _ _ _ _ _ _
    show Except.ok C = _
    simp [ruleOneOf]
  | cons t rest ih =>
    intro C hk hq hp hnew hneweps hia hsa
    obtain ⟨⟨q, oin, X⟩, p, push⟩ := t
    have hkt : (q, oin, X) ∉ rest.map (·.1) := by
      have := List.nodup_cons.mp hk
      simpa using this.1
    have hkr : (rest.map (·.1)).Nodup := (List.nodup_cons.mp hk).2
    cases oin with
    | none =>
      rw [List.foldlM_cons,
        show addRuleOne fin C ((q, none, X), p, push) = Except.ok C from rfl,
        exceptOkBind]
      rw [ih C hkr (fun t ht => hq t (by simp [ht])) (fun t ht => hp t (by simp [ht]))
        (fun t ht => hnew t (by simp [ht])) (fun t ht => hneweps t (by simp [ht]))
        (fun t ht => hia t (by simp [ht])) (fun t ht => hsa t (by simp [ht]))]
      rw [show ruleOneOf fin (((q, none, X), p, push) :: rest) = ruleOneOf fin rest from rfl]
    | some a =>
      have hq1 : (q, 1) ∈ C.states := (hq _ (List.mem_cons_self _ _)).1
      have hq2 : (q, 2) ∈ C.states := (hq _ (List.mem_cons_self _ _)).2
      have hpi : (p, if p ∈ fin then 1 else 0) ∈ C.states := by
        by_cases hpf : p ∈ fin
        · simpa [hpf] using (hp _ (List.mem_cons_self _ _)).2
        · simpa [hpf] using (hp _ (List.mem_cons_self _ _)).1
      have ha : a ∈ C.input_alphabet := hia _ (List.mem_cons_self _ _) a rfl
      have hX : X ∈ C.stack_alphabet := (hsa _ (List.mem_cons_self _ _)).1
      have hpush : ∀ x ∈ push, x ∈ C.stack_alphabet := (hsa _ (List.mem_cons_self _ _)).2
      have e1 : add_transition C (q, 1) (p, if p ∈ fin then 1 else 0) (some a) X push
          = .ok { C with transitions := C.transitions
              ++ [(((q, 1), some a, X), ((p, if p ∈ fin then 1 else 0), push))] } := by
        rw [add_transition_sym_ok C _ _ a X push hq1 hpi
          (hnew _ (List.mem_cons_self _ _) 1) (hneweps _ (List.mem_cons_self _ _) 1)]
        rw [addTransitionT_eq C _ _ (some a) X push
          (fun c hc => by rw [(Option.some.injEq _ _).mp hc.symm]; exact ha) hX hpush]
      have e2 : add_transition { C with transitions := C.transitions
              ++ [(((q, 1), some a, X), ((p, if p ∈ fin then 1 else 0), push))] }
            (q, 2) (p, if p ∈ fin then 1 else 0) (some a) X push
          = .ok { C with transitions := C.transitions
              ++ [(((q, 1), some a, X), ((p, if p ∈ fin then 1 else 0), push)),
                  (((q, 2), some a, X), ((p, if p ∈ fin then 1 else 0), push))] } := by
        have hkey2 : hasKey (C.transitions
            ++ [(((q, 1), some a, X), ((p, if p ∈ fin then 1 else 0), push))])
            ((q, 2), some a, X) = false := by
          rw [hasKey_append]
          rw [hnew _ (List.mem_cons_self _ _) 2]
          simp [hasKey]
        have heps2 : hasKey (C.transitions
            ++ [(((q, 1), some a, X), ((p, if p ∈ fin then 1 else 0), push))])
            ((q, 2), none, X) = false := by
          rw [hasKey_append]
          rw [hneweps _ (List.mem_cons_self _ _) 2]
          simp [hasKey]
        rw [add_transition_sym_ok
          { C with transitions := C.transitions
              ++ [(((q, 1), some a, X), ((p, if p ∈ fin then 1 else 0), push))] }
          (q, 2) (p, if p ∈ fin then 1 else 0) a X push hq2 hpi hkey2 heps2]
        rw [addTransitionT_eq
          { C with transitions := C.transitions
              ++ [(((q, 1), some a, X), ((p, if p ∈ fin then 1 else 0), push))] }
          (q, 2) (p, if p ∈ fin then 1 else 0) (some a) X push
          (fun c hc => by rw [(Option.some.injEq _ _).mp hc.symm]; exact ha) hX hpush]
        simp [List.append_assoc]
      rw [List.foldlM_cons,
        show addRuleOne fin C ((q, some a, X), p, push)
          = (add_transition C (q, 1) (p, if p ∈ fin then 1 else 0) (some a) X push >>=
              fun C => add_transition C (q, 2) (p, if p ∈ fin then 1 else 0) (some a) X push)
          from rfl,
        e1, exceptOkBind, e2, exceptOkBind]
      rw [ih _ hkr ?hq' ?hp' ?hnew' ?hneweps' ?hia' ?hsa']
      case hq' => intro t ht; exact hq t (by simp [ht])
      case hp' => intro t ht; exact hp t (by simp [ht])
      case hnew' =>
        intro t ht m
        rw [hasKey_append, hnew t (by simp [ht]) m]
        have hne : ∀ j : Nat, (((q, j), some a, X) : (α × Nat) × Option Char × Char)
            ≠ ((t.1.1, m), t.1.2.1, t.1.2.2) := by
          intro j hEq
          simp only [Prod.mk.injEq] at hEq
          obtain ⟨⟨hq', _⟩, hin', htop'⟩ := hEq
          apply hkt
          have hteq : t.1 = (q, some a, X) := by
            show (t.1.1, t.1.2.1, t.1.2.2) = (q, some a, X)
            rw [← hq', ← hin', ← htop']
          rw [← hteq]
          exact List.mem_map_of_mem (·.1) ht
        simp [hasKey, hne 1, hne 2]
      case hneweps' =>
        intro t ht m
        rw [hasKey_append, hneweps t (by simp [ht]) m]
        simp [hasKey]
      case hia' => intro t ht; exact hia t (by simp [ht])
      case hsa' => intro t ht; exact hsa t (by simp [ht])
      rw [show ruleOneOf fin (((q, some a, X), p, push) :: rest)
          = [(((q, 1), some a, X), ((p, if p ∈ fin then 1 else 0), push)),
             (((q, 2), some a, X), ((p, if p ∈ fin then 1 else 0), push))]
            ++ ruleOneOf fin rest from rfl]
      simp [List.append_assoc]

theorem ruleTwoPhase {α : Type} [DecidableEq α] (fin : List α) :
    ∀ (ts : List (PEntry α)) (C : APD (α × Nat)),
    (ts.map (·.1)).Nodup →
    (∀ t ∈ ts, (t.1.1, 1) ∈ C.states ∧ (t.1.1, 0) ∈ C.states) →
    (∀ t ∈ ts, (t.2.1, 0) ∈ C.states ∧ (t.2.1, 1) ∈ C.states) →
    (∀ t ∈ ts, t.1.2.1 = none →
      hasKey C.transitions ((t.1.1, 1), none, t.1.2.2) = false ∧
      hasKey C.transitions ((t.1.1, 0), none, t.1.2.2) = false) →
    (∀ t ∈ ts, t.1.2.1 = none → ∀ c,
      hasKey C.transitions ((t.1.1, 1), some c, t.1.2.2) = false ∧
      hasKey C.transitions ((t.1.1, 0), some c, t.1.2.2) = false) →
    (∀ t ∈ ts, t.1.2.2 ∈ C.stack_alphabet ∧ ∀ x ∈ t.2.2, x ∈ C.stack_alphabet) →
    ts.foldlM (addRuleTwo fin) C
      = .ok { C with transitions := C.transitions ++ ruleTwoOf fin ts } := by
  intro ts
  induction ts with
  | nil =>
    intro C _ _ _ _ _ _
    show Except.ok C = _
    simp [ruleTwoOf]
  | cons t rest ih =>
    intro C hk hq hp hnew hnosym hsa
    obtain ⟨⟨q, oin, X⟩, p, push⟩ := t
    have hkt : (q, oin, X) ∉ rest.map (·.1) := by
      have := List.nodup_cons.mp hk
      simpa using this.1
    have hkr : (rest.map (·.1)).Nodup := (List.nodup_cons.mp hk).2
    cases oin with
    | some a =>
      rw [List.foldlM_cons,
        show addRuleTwo fin C ((q, some a, X), p, push) = Except.ok C from rfl,
        exceptOkBind]
      rw [ih C hkr (fun t ht => hq t (by simp [ht])) (fun t ht => hp t (by simp [ht]))
        (fun t ht => hnew t (by simp [ht])) (fun t ht => hnosym t (by simp [ht]))
        (fun t ht => hsa t (by simp [ht]))]
      rw [show ruleTwoOf fin (((q, some a, X), p, push) :: rest) = ruleTwoOf fin rest from rfl]
    | none =>
      have hq1 : (q, 1) ∈ C.states := (hq _ (List.mem_cons_self _ _)).1
      have hq0 : (q, 0) ∈ C.states := (hq _ (List.mem_cons_self _ _)).2
      have hp1 : (p, 1) ∈ C.states := (hp _ (List.mem_cons_self _ _)).2
      have hpi : (p, if p ∈ fin then 1 else 0) ∈ C.states := by
        by_cases hpf : p ∈ fin
        · simpa [hpf] using (hp _ (List.mem_cons_self _ _)).2
        · simpa [hpf] using (hp _ (List.mem_cons_self _ _)).1
      have hX : X ∈ C.stack_alphabet := (hsa _ (List.mem_cons_self _ _)).1
      have hpush : ∀ x ∈ push, x ∈ C.stack_alphabet := (hsa _ (List.mem_cons_self _ _)).2
      have hnew1 := (hnew _ (List.mem_cons_self _ _) rfl).1
      have hnew0 := (hnew _ (List.mem_cons_self _ _) rfl).2
      have e1 : add_transition C (q, 1) (p, 1) none X push
          = .ok { C with transitions := C.transitions
              ++ [(((q, 1), none, X), ((p, 1), push))] } := by
        rw [add_transition_eps_ok C (q, 1) (p, 1) X push hq1 hp1 hnew1
          (fun c => (hnosym _ (List.mem_cons_self _ _) rfl c).1)]
        rw [addTransitionT_eq C (q, 1) (p, 1) none X push
          (fun c hc => nomatch hc) hX hpush]
      have e2 : add_transition { C with transitions := C.transitions
              ++ [(((q, 1), none, X), ((p, 1), push))] }
            (q, 0) (p, if p ∈ fin then 1 else 0) none X push
          = .ok { C with transitions := C.transitions
              ++ [(((q, 1), none, X), ((p, 1), push)),
                  (((q, 0), none, X), ((p, if p ∈ fin then 1 else 0), push))] } := by
        have hkey2 : hasKey (C.transitions ++ [(((q, 1), none, X), ((p, 1), push))])
            ((q, 0), none, X) = false := by
          rw [hasKey_append, hnew0]
          simp [hasKey]
        have hnosym2 : ∀ c, hasKey (C.transitions ++ [(((q, 1), none, X), ((p, 1), push))])
            ((q, 0), some c, X) = false := by
          intro c
          rw [hasKey_append, (hnosym _ (List.mem_cons_self _ _) rfl c).2]
          simp [hasKey]
        rw [add_transition_eps_ok
          { C with transitions := C.transitions ++ [(((q, 1), none, X), ((p, 1), push))] }
          (q, 0) (p, if p ∈ fin then 1 else 0) X push hq0 hpi hkey2 hnosym2]
        rw [addTransitionT_eq
          { C with transitions := C.transitions ++ [(((q, 1), none, X), ((p, 1), push))] }
          (q, 0) (p, if p ∈ fin then 1 else 0) none X push
          (fun c hc => nomatch hc) hX hpush]
        simp [List.append_assoc]
      rw [List.foldlM_cons,
        show addRuleTwo fin C ((q, none, X), p, push)
          = (add_transition C (q, 1) (p, 1) none X push >>=
              fun C => add_transition C (q, 0) (p, if p ∈ fin then 1 else 0) none X push)
          from rfl,
        e1, exceptOkBind, e2, exceptOkBind]
      rw [ih _ hkr ?hq' ?hp' ?hnew' ?hnosym' ?hsa']
      case hq' => intro t ht; exact hq t (by simp [ht])
      case hp' => intro t ht; exact hp t (by simp [ht])
      case hnew' =>
        intro t ht hteps
        have hne : ∀ (j m : Nat), (((q, j), none, X) : (α × Nat) × Option Char × Char)
            ≠ ((t.1.1, m), (none : Option Char), t.1.2.2) := by
          intro j m hEq
          simp only [Prod.mk.injEq] at hEq
          obtain ⟨⟨hq', _⟩, _, htop'⟩ := hEq
          apply hkt
          have hteq : t.1 = (q, none, X) := by
            show (t.1.1, t.1.2.1, t.1.2.2) = (q, none, X)
            rw [← hq', ← htop', hteps]
          rw [← hteq]
          exact List.mem_map_of_mem (·.1) ht
        constructor
        · rw [hasKey_append, (hnew t (by simp [ht]) hteps).1]
          simp [hasKey, hne 1 1, hne 0 1]
        · rw [hasKey_append, (hnew t (by simp [ht]) hteps).2]
          simp [hasKey, hne 1 0, hne 0 0]
      case hnosym' =>
        intro t ht hteps c
        constructor
        · rw [hasKey_append, (hnosym t (by simp [ht]) hteps c).1]
          simp [hasKey]
        · rw [hasKey_append, (hnosym t (by simp [ht]) hteps c).2]
          simp [hasKey]
      case hsa' => intro t ht; exact hsa t (by simp [ht])
      rw [show ruleTwoOf fin (((q, none, X), p, push) :: rest)
          = [(((q, 1), none, X), ((p, 1), push)),
             (((q, 0), none, X), ((p, if p ∈ fin then 1 else 0), push))]
            ++ ruleTwoOf fin rest from rfl]
      simp [List.append_assoc]

theorem mem_ruleThreeRow {α : Type} [DecidableEq α] {pts : List (PEntry α)}
    {q : α} {Xs : List Char} {kv : CEntry α} :
    kv ∈ ruleThreeRow pts q Xs ↔
      ∃ X ∈ Xs, hasKey pts (q, none, X) = false
        ∧ kv = (((q, 0), none, X), ((q, 2), ([X] : Str))) := by
  simp only [ruleThreeRow, List.mem_map, List.mem_filter, Bool.not_eq_true']
  constructor
  · rintro ⟨X, ⟨hX, hk⟩, rfl⟩
    exact ⟨X, hX, hk, rfl⟩
  · rintro ⟨X, hX, hk, rfl⟩
    exact ⟨X, ⟨hX, hk⟩, rfl⟩

theorem ruleThreeRowPhase {α : Type} [DecidableEq α] (pts : List (PEntry α)) (q : α) :
    ∀ (Xs : List Char) (C : APD (α × Nat)),
    Xs.Nodup →
    (q, 0) ∈ C.states → (q, 2) ∈ C.states →
    (∀ X ∈ Xs, hasKey pts (q, none, X) = false →
      hasKey C.transitions ((q, 0), none, X) = false) →
    (∀ X ∈ Xs, ∀ c, hasKey C.transitions ((q, 0), some c, X) = false) →
    (∀ X ∈ Xs, X ∈ C.stack_alphabet) →
    addRuleThree pts C q Xs
      = .ok { C with transitions := C.transitions ++ ruleThreeRow pts q Xs } := by
  intro Xs
  induction Xs with
  | nil =>
    intro C _ _ _ _ _ _
    show Except.ok C = _
    simp [ruleThreeRow]
  | cons X rest ih =>
    intro C hnd h0 h2 hnew hnosym hsa
    have hXr : X ∉ rest := (List.nodup_cons.mp hnd).1
    have hndr : rest.Nodup := (List.nodup_cons.mp hnd).2
    show (X :: rest).foldlM _ C = _
    rw [List.foldlM_cons]
    by_cases hkey : hasKey pts (q, none, X) = true
    · rw [show (if hasKey pts (q, none, X) then (pure C : Except BuildErr (APD (α × Nat)))
          else add_transition C (q, 0) (q, 2) none X [X]) = Except.ok C by rw [hkey]; rfl,
        exceptOkBind]
      rw [show rest.foldlM (fun C stack_symbol =>
            if hasKey pts (q, none, stack_symbol) then pure C
            else add_transition C (q, 0) (q, 2) none stack_symbol [stack_symbol]) C
          = addRuleThree pts C q rest from rfl]
      rw [ih C hndr h0 h2 (fun X' hX' => hnew X' (by simp [hX']))
        (fun X' hX' => hnosym X' (by simp [hX'])) (fun X' hX' => hsa X' (by simp [hX']))]
      rw [show ruleThreeRow pts q (X :: rest) = ruleThreeRow pts q rest by
        simp [ruleThreeRow, hkey]]
    · rw [Bool.not_eq_true] at hkey
      have e1 : add_transition C (q, 0) (q, 2) none X [X]
          = .ok { C with transitions := C.transitions
              ++ [(((q, 0), none, X), ((q, 2), ([X] : Str)))] } := by
        rw [add_transition_eps_ok C (q, 0) (q, 2) X [X] h0 h2
          (hnew X (List.mem_cons_self _ _) hkey)
          (fun c => hnosym X (List.mem_cons_self _ _) c)]
        rw [addTransitionT_eq C (q, 0) (q, 2) none X [X] (fun c hc => nomatch hc)
          (hsa X (List.mem_cons_self _ _))
          (fun x hx => by
            rw [List.mem_singleton.mp hx]
            exact hsa X (List.mem_cons_self _ _))]
      rw [show (if hasKey pts (q, none, X) then (pure C : Except BuildErr (APD (α × Nat)))
          else add_transition C (q, 0) (q, 2) none X [X])
          = add_transition C (q, 0) (q, 2) none X [X] by simp [hkey],
        e1, exceptOkBind]
      rw [show rest.foldlM (fun C stack_symbol =>
            if hasKey pts (q, none, stack_symbol) then pure C
            else add_transition C (q, 0) (q, 2) none stack_symbol [stack_symbol])
            { C with transitions := C.transitions
              ++ [(((q, 0), none, X), ((q, 2), ([X] : Str)))] }
          = addRuleThree pts { C with transitions := C.transitions
              ++ [(((q, 0), none, X), ((q, 2), ([X] : Str)))] } q rest from rfl]
      rw [ih { C with transitions := C.transitions
          ++ [(((q, 0), none, X), ((q, 2), ([X] : Str)))] } hndr h0 h2 ?hnew' ?hnosym' ?hsa']
      case hnew' =>
        intro X' hX' hk'
        rw [hasKey_append, hnew X' (by simp [hX']) hk']
        have hne : X ≠ X' := fun hEq => hXr (hEq ▸ hX')
        simp [hasKey, hne]
      case hnosym' =>
        intro X' hX' c
        rw [hasKey_append, hnosym X' (by simp [hX']) c]
        simp [hasKey]
      case hsa' => intro X' hX'; exact hsa X' (by simp [hX'])
      rw [show ruleThreeRow pts q (X :: rest)
          = (((q, 0), none, X), ((q, 2), ([X] : Str))) :: ruleThreeRow pts q rest by
        simp [ruleThreeRow, hkey]]
      simp [List.append_assoc]

theorem ruleThreePhase {α : Type} [DecidableEq α] (pts : List (PEntry α)) (Xs : List Char) :
    ∀ (qs : List α) (C : APD (α × Nat)),
    qs.Nodup → Xs.Nodup →
    (∀ q ∈ qs, (q, 0) ∈ C.states ∧ (q, 2) ∈ C.states) →
    (∀ q ∈ qs, ∀ X ∈ Xs, hasKey pts (q, none, X) = false →
      hasKey C.transitions ((q, 0), none, X) = false) →
    (∀ q ∈ qs, ∀ X ∈ Xs, ∀ c, hasKey C.transitions ((q, 0), some c, X) = false) →
    (∀ X ∈ Xs, X ∈ C.stack_alphabet) →
    qs.foldlM (fun C q => addRuleThree pts C q Xs) C
      = .ok { C with transitions := C.transitions ++ ruleThreeOf pts qs Xs } := by
  intro qs
  induction qs with
  | nil =>
    intro C _ _ _ _ _ _
    show Except.ok C = _
    simp [ruleThreeOf]
  | cons q rest ih =>
    intro C hqnd hXnd hmem hnew hnosym hsa
    have hqr : q ∉ rest := (List.nodup_cons.mp hqnd).1
    have hqndr : rest.Nodup := (List.nodup_cons.mp hqnd).2
    rw [List.foldlM_cons]
    rw [ruleThreeRowPhase pts q Xs C hXnd
      (hmem q (List.mem_cons_self _ _)).1 (hmem q (List.mem_cons_self _ _)).2
      (fun X hX => hnew q (List.mem_cons_self _ _) X hX)
      (fun X hX => hnosym q (List.mem_cons_self _ _) X hX) hsa,
      exceptOkBind]
    rw [ih _ hqndr hXnd ?hmem' ?hnew' ?hnosym' ?hsa']
    case hmem' => intro q' hq'; exact hmem q' (by simp [hq'])
    case hnew' =>
      intro q' hq' X hX hk
      rw [hasKey_append, hnew q' (by simp [hq']) X hX hk]
      have hne : q' ≠ q := fun hEq => hqr (hEq ▸ hq')
      rw [Bool.false_or]
      rw [hasKey_false_iff]
      intro kv hkv
      obtain ⟨X', _, _, rfl⟩ := mem_ruleThreeRow.mp hkv
      intro hEq
      simp only [Prod.mk.injEq] at hEq
      exact hne hEq.1.1.symm
    case hnosym' =>
      intro q' hq' X hX c
      rw [hasKey_append, hnosym q' (by simp [hq']) X hX c]
      rw [Bool.false_or]
      rw [hasKey_false_iff]
      intro kv hkv
      obtain ⟨X', _, _, rfl⟩ := mem_ruleThreeRow.mp hkv
      intro hEq
      simp only [Prod.mk.injEq] at hEq
      exact Option.noConfusion hEq.2.1
    case hsa' => exact hsa
    rw [show ruleThreeOf pts (q :: rest) Xs
        = ruleThreeRow pts q Xs ++ ruleThreeOf pts rest Xs from rfl]
    simp [List.append_assoc]

theorem mem_ruleOneOf {α : Type} [DecidableEq α] {fin : List α}
    {ts : List (PEntry α)} {kv : CEntry α} :
    kv ∈ ruleOneOf fin ts ↔ ∃ t ∈ ts, ∃ a, t.1.2.1 = some a ∧
      (kv = (((t.1.1, 1), some a, t.1.2.2), ((t.2.1, if t.2.1 ∈ fin then 1 else 0), t.2.2))
        ∨ kv = (((t.1.1, 2), some a, t.1.2.2), ((t.2.1, if t.2.1 ∈ fin then 1 else 0), t.2.2))) := by
  simp only [ruleOneOf, List.mem_flatMap]
  constructor
  · rintro ⟨t, ht, hmem⟩
    obtain ⟨⟨q, oin, X⟩, p, push⟩ := t
    cases oin with
    | none => simp at hmem
    | some a =>
      simp only [List.mem_cons, List.not_mem_nil, or_false] at hmem
      exact ⟨((q, some a, X), p, push), ht, a, rfl, hmem⟩
  · rintro ⟨t, ht, a, ha, hcase⟩
    obtain ⟨⟨q, oin, X⟩, p, push⟩ := t
    cases oin with
    | none => simp at ha
    | some a' =>
      simp only [Option.some.injEq] at ha
      subst ha
      refine ⟨((q, some a', X), p, push), ht, ?_⟩
      simp only [List.mem_cons, List.not_mem_nil, or_false]
      exact hcase

theorem mem_ruleTwoOf {α : Type} [DecidableEq α] {fin : List α}
    {ts : List (PEntry α)} {kv : CEntry α} :
    kv ∈ ruleTwoOf fin ts ↔ ∃ t ∈ ts, t.1.2.1 = none ∧
      (kv = (((t.1.1, 1), none, t.1.2.2), ((t.2.1, 1), t.2.2))
        ∨ kv = (((t.1.1, 0), none, t.1.2.2), ((t.2.1, if t.2.1 ∈ fin then 1 else 0), t.2.2))) := by
  simp only [ruleTwoOf, List.mem_flatMap]
  constructor
  · rintro ⟨t, ht, hmem⟩
    obtain ⟨⟨q, oin, X⟩, p, push⟩ := t
    cases oin with
    | some a => simp at hmem
    | none =>
      simp only [List.mem_cons, List.not_mem_nil, or_false] at hmem
      exact ⟨((q, none, X), p, push), ht, rfl, hmem⟩
  · rintro ⟨t, ht, ha, hcase⟩
    obtain ⟨⟨q, oin, X⟩, p, push⟩ := t
    cases oin with
    | some a' => simp at ha
    | none =>
      refine ⟨((q, none, X), p, push), ht, ?_⟩
      simp only [List.mem_cons, List.not_mem_nil, or_false]
      exact hcase

theorem mem_ruleThreeOf {α : Type} [DecidableEq α] {pts : List (PEntry α)}
    {qs : List α} {Xs : List Char} {kv : CEntry α} :
    kv ∈ ruleThreeOf pts qs Xs ↔ ∃ q ∈ qs, ∃ X ∈ Xs,
      hasKey pts (q, none, X) = false ∧ kv = (((q, 0), none, X), ((q, 2), ([X] : Str))) := by
  simp only [ruleThreeOf, List.mem_flatMap]
  constructor
  · rintro ⟨q, hq, hmem⟩
    obtain ⟨X, hX, hk, rfl⟩ := mem_ruleThreeRow.mp hmem
    exact ⟨q, hq, X, hX, hk, rfl⟩
  · rintro ⟨q, hq, X, hX, hk, rfl⟩
    exact ⟨q, hq, mem_ruleThreeRow.mpr ⟨X, hX, hk, rfl⟩⟩

theorem ruleOne_no_eps_key {α : Type} [DecidableEq α] (fin : List α)
    (ts : List (PEntry α)) (s : α × Nat) (X : Char) :
    hasKey (ruleOneOf fin ts) (s, none, X) = false := by
  rw [hasKey_false_iff]
  intro kv hkv
  obtain ⟨t, _, a, _, hcase⟩ := mem_ruleOneOf.mp hkv
  rcases hcase with rfl | rfl <;>
  · intro hEq
    simp only [Prod.mk.injEq] at hEq
    exact Option.noConfusion hEq.2.1

theorem ruleTwo_no_sym_key {α : Type} [DecidableEq α] (fin : List α)
    (ts : List (PEntry α)) (s : α × Nat) (c : Char) (X : Char) :
    hasKey (ruleTwoOf fin ts) (s, some c, X) = false := by
  rw [hasKey_false_iff]
  intro kv hkv
  obtain ⟨t, _, _, hcase⟩ := mem_ruleTwoOf.mp hkv
  rcases hcase with rfl | rfl <;>
  · intro hEq
    simp only [Prod.mk.injEq] at hEq
    exact Option.noConfusion hEq.2.1

theorem ruleThree_no_sym_key {α : Type} [DecidableEq α] (pts : List (PEntry α))
    (qs : List α) (Xs : List Char) (s : α × Nat) (c : Char) (X : Char) :
    hasKey (ruleThreeOf pts qs Xs) (s, some c, X) = false := by
  rw [hasKey_false_iff]
  intro kv hkv
  obtain ⟨q, _, X', _, _, rfl⟩ := mem_ruleThreeOf.mp hkv
  intro hEq
  simp only [Prod.mk.injEq] at hEq
  exact Option.noConfusion hEq.2.1

theorem ruleOne_no_marker0_key {α : Type} [DecidableEq α] (fin : List α)
    (ts : List (PEntry α)) (q : α) (oin : Option Char) (X : Char) :
    hasKey (ruleOneOf fin ts) ((q, 0), oin, X) = false := by
  rw [hasKey_false_iff]
  intro kv hkv
  obtain ⟨t, _, a, _, hcase⟩ := mem_ruleOneOf.mp hkv
  rcases hcase with rfl | rfl <;>
  · intro hEq
    simp only [Prod.mk.injEq] at hEq
    exact absurd hEq.1.2 (by decide)

theorem ruleTwo_eps_key_to_src {α : Type} [DecidableEq α] (fin : List α)
    (ts : List (PEntry α)) (q : α) (m : Nat) (X : Char) :
    hasKey (ruleTwoOf fin ts) ((q, m), none, X) = true → hasKey ts (q, none, X) = true := by
  intro h
  obtain ⟨kv, hkv, hEq⟩ := (hasKey_true_iff _ _).mp h
  obtain ⟨t, ht, hteps, hcase⟩ := mem_ruleTwoOf.mp hkv
  rw [hasKey_true_iff]
  refine ⟨t, ht, ?_⟩
  rcases hcase with rfl | rfl <;>
  · simp only [Prod.mk.injEq] at hEq
    show (t.1.1, t.1.2.1, t.1.2.2) = (q, none, X)
    rw [hteps, hEq.1.1, hEq.2.2]

theorem crear_ok {α : Type} [DecidableEq α] (P : APD α) (q0 : α)
    (hWF : SourceWF P) (hq0 : P.initial_state = some q0) (hq0m : q0 ∈ P.states) :
    crear_automata_complemento P = .ok (complementAPD P q0) := by
  obtain ⟨hnd, hsand, hknd, hends, hsym, hstk, hdet⟩ := hWF
  have h1 : P.states.foldlM addTripleStates (newAPD (α × Nat))
      = .ok (⟨tripleStates P.states, none, tripleFinals P.states, [], [], [], '⊥'⟩
        : APD (α × Nat)) := by
    rw [statesPhase P.states (newAPD (α × Nat)) hnd (fun q hq i => by simp [newAPD])]
    rfl
  have hrest : ∀ C : APD (α × Nat),
      C.states = tripleStates P.states →
      C.initial_state = some (if q0 ∈ P.final_states then (q0, 1) else (q0, 0)) →
      C.final_states = tripleFinals P.states →
      C.transitions = [] →
      C.input_alphabet = P.input_alphabet →
      C.stack_alphabet = setAdd P.stack_alphabet P.initial_stack_symbol →
      C.initial_stack_symbol = P.initial_stack_symbol →
      (P.transitions.foldlM (addRuleOne P.final_states) C >>= fun C5 =>
        P.transitions.foldlM (addRuleTwo P.final_states) C5 >>= fun C6 =>
        P.states.foldlM (fun C q => addRuleThree P.transitions C q P.stack_alphabet) C6)
      = .ok (complementAPD P q0) := by
    intro C hst hin hfin htr hia hsa hiss
    have e1 : P.transitions.foldlM (addRuleOne P.final_states) C
        = .ok { C with transitions := C.transitions
            ++ ruleOneOf P.final_states P.transitions } := by
      refine ruleOnePhase P.final_states P.transitions C hknd ?_ ?_ ?_ ?_ ?_ ?_
      · intro t ht
        rw [hst]
        exact ⟨mem_tripleStates.mpr ⟨(hends t ht).1, by simp⟩,
          mem_tripleStates.mpr ⟨(hends t ht).1, by simp⟩⟩
      · intro t ht
        rw [hst]
        exact ⟨mem_tripleStates.mpr ⟨(hends t ht).2, by simp⟩,
          mem_tripleStates.mpr ⟨(hends t ht).2, by simp⟩⟩
      · intro t ht m
        rw [htr]
        rfl
      · intro t ht m
        rw [htr]
        rfl
      · intro t ht c hc
        rw [hia]
        exact hsym t ht c hc
      · intro t ht
        rw [hsa]
        exact ⟨mem_setAdd_of_mem _ (hstk t ht).1,
          fun x hx => mem_setAdd_of_mem _ ((hstk t ht).2 x hx)⟩
    have e2 : P.transitions.foldlM (addRuleTwo P.final_states)
          { C with transitions := C.transitions ++ ruleOneOf P.final_states P.transitions }
        = .ok { C with transitions := (C.transitions
            ++ ruleOneOf P.final_states P.transitions)
            ++ ruleTwoOf P.final_states P.transitions } := by
      refine ruleTwoPhase P.final_states P.transitions _ hknd ?_ ?_ ?_ ?_ ?_
      · intro t ht
        show (t.1.1, 1) ∈ C.states ∧ (t.1.1, 0) ∈ C.states
        rw [hst]
        exact ⟨mem_tripleStates.mpr ⟨(hends t ht).1, by simp⟩,
          mem_tripleStates.mpr ⟨(hends t ht).1, by simp⟩⟩
      · intro t ht
        show (t.2.1, 0) ∈ C.states ∧ (t.2.1, 1) ∈ C.states
        rw [hst]
        exact ⟨mem_tripleStates.mpr ⟨(hends t ht).2, by simp⟩,
          mem_tripleStates.mpr ⟨(hends t ht).2, by simp⟩⟩
      · intro t ht hteps
        show hasKey (C.transitions ++ _) _ = false ∧ hasKey (C.transitions ++ _) _ = false
        rw [htr]
        constructor
        · exact ruleOne_no_eps_key P.final_states P.transitions (t.1.1, 1) t.1.2.2
        · exact ruleOne_no_eps_key P.final_states P.transitions (t.1.1, 0) t.1.2.2
      · intro t ht hteps c
        show hasKey (C.transitions ++ _) _ = false ∧ hasKey (C.transitions ++ _) _ = false
        rw [htr]
        constructor
        · show hasKey ([] ++ ruleOneOf P.final_states P.transitions)
            ((t.1.1, 1), some c, t.1.2.2) = false
          rw [hasKey_false_iff]
          intro kv hkv
          simp only [List.nil_append] at hkv
          obtain ⟨t', ht', a, ha', hcase⟩ := mem_ruleOneOf.mp hkv
          rcases hcase with rfl | rfl <;>
          · intro hEq
            simp only [Prod.mk.injEq] at hEq
            have := hdet t ht t' ht' hteps hEq.1.1 hEq.2.2
            rw [ha'] at this
            exact Option.noConfusion this
        · show hasKey ([] ++ ruleOneOf P.final_states P.transitions)
            ((t.1.1, 0), some c, t.1.2.2) = false
          simp only [List.nil_append]
          exact ruleOne_no_marker0_key P.final_states P.transitions t.1.1 (some c) t.1.2.2
      · intro t ht
        show t.1.2.2 ∈ C.stack_alphabet ∧ ∀ x ∈ t.2.2, x ∈ C.stack_alphabet
        rw [hsa]
        exact ⟨mem_setAdd_of_mem _ (hstk t ht).1,
          fun x hx => mem_setAdd_of_mem _ ((hstk t ht).2 x hx)⟩
    have e3 : P.states.foldlM (fun C q => addRuleThree P.transitions C q P.stack_alphabet)
          { C with transitions := (C.transitions
            ++ ruleOneOf P.final_states P.transitions)
            ++ ruleTwoOf P.final_states P.transitions }
        = .ok (complementAPD P q0) := by
      rw [ruleThreePhase P.transitions P.stack_alphabet P.states _ hnd hsand ?hmem ?hnew ?hnosym ?hsa3]
      case hmem =>
        intro q hq
        show (q, 0) ∈ C.states ∧ (q, 2) ∈ C.states
        rw [hst]
        exact ⟨mem_tripleStates.mpr ⟨hq, by simp⟩, mem_tripleStates.mpr ⟨hq, by simp⟩⟩
      case hnew =>
        intro q hq X hX hk
        show hasKey ((C.transitions ++ _) ++ _) _ = false
        rw [htr]
        simp only [List.nil_append]
        rw [hasKey_append]
        rw [ruleOne_no_eps_key P.final_states P.transitions (q, 0) X]
        have h2 : hasKey (ruleTwoOf P.final_states P.transitions) ((q, 0), none, X) = false := by
          cases hcase : hasKey (ruleTwoOf P.final_states P.transitions) ((q, 0), none, X) with
          | false => rfl
          | true =>
            have := ruleTwo_eps_key_to_src P.final_states P.transitions q 0 X hcase
            rw [hk] at this
            exact Bool.noConfusion this
        rw [h2]
        rfl
      case hnosym =>
        intro q hq X hX c
        show hasKey ((C.transitions ++ _) ++ _) _ = false
        rw [htr]
        simp only [List.nil_append]
        rw [hasKey_append]
        rw [ruleOne_no_marker0_key P.final_states P.transitions q (some c) X]
        rw [ruleTwo_no_sym_key P.final_states P.transitions (q, 0) c X]
        rfl
      case hsa3 =>
        intro X hX
        show X ∈ C.stack_alphabet
        rw [hsa]
        exact mem_setAdd_of_mem _ hX
      · show Except.ok _ = Except.ok (complementAPD P q0)
        cases C
        simp only at hst hin hfin htr hia hsa hiss
        subst hst hin hfin htr hia hsa hiss
        simp [complementAPD, List.append_assoc]
    rw [e1, exceptOkBind, e2, exceptOkBind, e3]
  unfold crear_automata_complemento
  simp only [h1, exceptOkBind, hq0]
  by_cases hf : q0 ∈ P.final_states
  · rw [if_pos hf]
    have hmem1 : ((q0, 1) : α × Nat) ∈ tripleStates P.states :=
      mem_tripleStates.mpr ⟨hq0m, by simp⟩
    have hm : mark_initial_state
        (⟨tripleStates P.states, none, tripleFinals P.states, [], [], [], '⊥'⟩ : APD (α × Nat))
        (q0, 1)
        = .ok (⟨tripleStates P.states, some (q0, 1), tripleFinals P.states, [], [], [], '⊥'⟩
          : APD (α × Nat)) := by
      simp [mark_initial_state, hmem1]
    simp only [hm, exceptOkBind]
    exact hrest _ rfl (by rw [if_pos hf]; rfl) rfl rfl rfl rfl rfl
  · rw [if_neg hf]
    have hmem0 : ((q0, 0) : α × Nat) ∈ tripleStates P.states :=
      mem_tripleStates.mpr ⟨hq0m, by simp⟩
    have hm : mark_initial_state
        (⟨tripleStates P.states, none, tripleFinals P.states, [], [], [], '⊥'⟩ : APD (α × Nat))
        (q0, 0)
        = .ok (⟨tripleStates P.states, some (q0, 0), tripleFinals P.states, [], [], [], '⊥'⟩
          : APD (α × Nat)) := by
      simp [mark_initial_state, hmem0]
    simp only [hm, exceptOkBind]
    exact hrest _ rfl (by rw [if_neg hf]; rfl) rfl rfl rfl rfl rfl

theorem complement_DetInvP {α : Type} [DecidableEq α] (P : APD α) (q0 : α)
    (hdet : DetInvP P) : DetInvP (complementAPD P q0) := by
  intro kv hkv kv' hkv' hkveps hst htop
  by_contra hne
  obtain ⟨c, hc⟩ : ∃ c, kv'.1.2.1 = some c := by
    cases hx : kv'.1.2.1 with
    | none => exact absurd hx hne
    | some c => exact ⟨c, rfl⟩
  simp only [complementAPD, List.mem_append] at hkv hkv'
  have hkv'1 : kv' ∈ ruleOneOf P.final_states P.transitions := by
    rcases hkv' with (h | h) | h
    · exact h
    · obtain ⟨t, ht, hteps, hcase⟩ := mem_ruleTwoOf.mp h
      rcases hcase with rfl | rfl <;> simp at hc
    · obtain ⟨q, _, X, _, _, rfl⟩ := mem_ruleThreeOf.mp h
      simp at hc
  obtain ⟨t', ht', a, ha', hcase'⟩ := mem_ruleOneOf.mp hkv'1
  rcases hkv with (h | h) | h
  · obtain ⟨t, ht, a0, ha0, hcase⟩ := mem_ruleOneOf.mp h
    rcases hcase with rfl | rfl <;> simp at hkveps
  · obtain ⟨t, ht, hteps, hcase⟩ := mem_ruleTwoOf.mp h
    rcases hcase with rfl | rfl <;> rcases hcase' with rfl | rfl <;>
      simp only [Prod.mk.injEq] at hst htop
    · have := hdet t ht t' ht' hteps hst.1 htop
      rw [ha'] at this
      exact Option.noConfusion this
    · exact absurd hst.2 (by decide)
    · exact absurd hst.2 (by decide)
    · exact absurd hst.2 (by decide)
  · obtain ⟨q, _, X, _, _, rfl⟩ := mem_ruleThreeOf.mp h
    rcases hcase' with rfl | rfl <;> simp only [Prod.mk.injEq] at hst <;>
      exact absurd hst.2 (by decide)

theorem is_deterministic_of_DetInvP {α : Type} [DecidableEq α] (A : APD α)
    (h : DetInvP A) : is_deterministic A = true := by
  unfold is_deterministic
  rw [List.all_eq_true]
  intro kv hkv
  obtain ⟨⟨q, oin, X⟩, v⟩ := kv
  cases oin with
  | some a => rfl
  | none =>
    show (A.input_alphabet.all fun symbol =>
      !hasKey A.transitions (q, some symbol, X)) = true
    rw [List.all_eq_true]
    intro c hc
    rw [Bool.not_eq_true']
    rw [hasKey_false_iff]
    intro kv' hkv' hEq
    have h1 : kv'.1.1 = q := by rw [hEq]
    have h2 : kv'.1.2.2 = X := by rw [hEq]
    have hnone := h ((q, none, X), v) hkv kv' hkv' rfl h1 h2
    rw [hEq] at hnone
    exact Option.noConfusion hnone

/-- C9: on a source automaton satisfying the builder invariants (the
determinism invariant, registered transition endpoints, duplicate-free sets
and dict, alphabet closure) with a marked, registered initial state, the
complement construction never raises — every `add_state`,
`mark_initial_state` and `add_transition` call succeeds, producing exactly
the rule (i)–(iii) transitions — and the constructed automaton again
satisfies the determinism invariant (also as re-checked by
`is_deterministic`). -/
theorem C9_complement_construction_never_raises {α : Type} [DecidableEq α]
    (P : APD α) (q0 : α)
    (hWF : SourceWF P) (hq0 : P.initial_state = some q0) (hq0m : q0 ∈ P.states) :
    crear_automata_complemento P = .ok (complementAPD P q0)
    ∧ DetInvP (complementAPD P q0)
    ∧ is_deterministic (complementAPD P q0) = true :=
  ⟨crear_ok P q0 hWF hq0 hq0m,
    complement_DetInvP P q0 hWF.2.2.2.2.2.2,
    is_deterministic_of_DetInvP _ (complement_DetInvP P q0 hWF.2.2.2.2.2.2)⟩

/-- Witness for C9 at the reference automaton. -/
theorem C9_witness :
    (SourceWF P_ref ∧ P_ref.initial_state = some "q0".data ∧ "q0".data ∈ P_ref.states) ∧
    (crear_automata_complemento P_ref = .ok (complementAPD P_ref "q0".data)
      ∧ DetInvP (complementAPD P_ref "q0".data)
      ∧ is_deterministic (complementAPD P_ref "q0".data) = true) :=
  ⟨⟨by unfold SourceWF DetInvP; decide, rfl, by decide⟩,
    C9_complement_construction_never_raises P_ref "q0".data
      (by unfold SourceWF DetInvP; decide) rfl (by decide)⟩

/-- C2: on a well-formed source `P` with initial state `q0`, the automaton
`C` built by `crear_automata_complemento` has exactly the states `(q, i)`
for `q ∈ P` and `i ∈ {0, 1, 2}`, of which exactly the `(q, 2)` are
accepting; its initial state is `(q0, 1)` iff `q0` is accepting in `P` and
`(q0, 0)` otherwise; its transition table is exactly the concatenation of
the rule (i), (ii) and (iii) lists; rule (iii) contributes the ε-jump
`(q,0) --ε,X/X--> (q,2)` exactly for the pairs `(q, X)` with
`X ∈ Γ` and no source ε-transition on `(q, ε, X)`; and no transition out
of a marker-1 state targets a marker-2 state. -/
theorem C2_complement_structure {α : Type} [DecidableEq α] (P : APD α)
    (q0 : α) (C : APD (α × Nat))
    (hWF : SourceWF P) (hq0 : P.initial_state = some q0) (hq0m : q0 ∈ P.states)
    (hC : crear_automata_complemento P = .ok C) :
    C.states = tripleStates P.states
    ∧ C.final_states = tripleFinals P.states
    ∧ C.initial_state = some (if q0 ∈ P.final_states then (q0, 1) else (q0, 0))
    ∧ C.transitions = ruleOneOf P.final_states P.transitions
        ++ ruleTwoOf P.final_states P.transitions
        ++ ruleThreeOf P.transitions P.states P.stack_alphabet
    ∧ (∀ (q : α) (X : Char),
        (((q, 0), none, X), ((q, 2), ([X] : Str))) ∈ C.transitions ↔
        (q ∈ P.states ∧ X ∈ P.stack_alphabet ∧ hasKey P.transitions (q, none, X) = false))
    ∧ (∀ kv ∈ C.transitions, kv.1.1.2 = 1 → kv.2.1.2 ≠ 2) := by
  rw [crear_ok P q0 hWF hq0 hq0m] at hC
  injection hC with hC
  subst hC
  refine ⟨rfl, rfl, rfl, rfl, ?_, ?_⟩
  · intro q X
    constructor
    · intro hmem
      simp only [complementAPD, List.mem_append] at hmem
      rcases hmem with (h | h) | h
      · obtain ⟨t, _, a, _, hcase⟩ := mem_ruleOneOf.mp h
        rcases hcase with h' | h' <;>
        · simp only [Prod.mk.injEq] at h'
          exact Option.noConfusion h'.1.2.1
      · obtain ⟨t, ht, hteps, hcase⟩ := mem_ruleTwoOf.mp h
        rcases hcase with h' | h'
        · simp only [Prod.mk.injEq] at h'
          exact absurd h'.1.1.2 (by decide)
        · simp only [Prod.mk.injEq] at h'
          by_cases hpf : t.2.1 ∈ P.final_states
          · rw [if_pos hpf] at h'
            exact absurd h'.2.1.2 (by decide)
          · rw [if_neg hpf] at h'
            exact absurd h'.2.1.2 (by decide)
      · obtain ⟨q', hq', X', hX', hk', h'⟩ := mem_ruleThreeOf.mp h
        simp only [Prod.mk.injEq] at h'
        obtain ⟨⟨⟨hqq, _⟩, _, hXX⟩, _⟩ := h'
        subst hqq
        subst hXX
        exact ⟨hq', hX', hk'⟩
    · rintro ⟨hqm, hXm, hk⟩
      simp only [complementAPD, List.mem_append]
      exact Or.inr (mem_ruleThreeOf.mpr ⟨q, hqm, X, hXm, hk, rfl⟩)
  · intro kv hkv h1
    simp only [complementAPD, List.mem_append] at hkv
    rcases hkv with (h | h) | h
    · obtain ⟨t, _, a, _, hcase⟩ := mem_ruleOneOf.mp h
      rcases hcase with rfl | rfl
      · by_cases hpf : t.2.1 ∈ P.final_states <;> simp [hpf]
      · simp at h1
    · obtain ⟨t, _, _, hcase⟩ := mem_ruleTwoOf.mp h
      rcases hcase with rfl | rfl
      · simp
      · simp at h1
    · obtain ⟨q, _, X, _, _, rfl⟩ := mem_ruleThreeOf.mp h
      simp at h1

/-- Witness for C2 at the reference automaton and its complement. -/
theorem C2_witness :
    (SourceWF P_ref ∧ P_ref.initial_state = some "q0".data ∧ "q0".data ∈ P_ref.states
      ∧ crear_automata_complemento P_ref = .ok C_ref) ∧
    (C_ref.states = tripleStates P_ref.states
      ∧ C_ref.final_states = tripleFinals P_ref.states
      ∧ C_ref.initial_state
          = some (if "q0".data ∈ P_ref.final_states then ("q0".data, 1) else ("q0".data, 0))
      ∧ C_ref.transitions = ruleOneOf P_ref.final_states P_ref.transitions
          ++ ruleTwoOf P_ref.final_states P_ref.transitions
          ++ ruleThreeOf P_ref.transitions P_ref.states P_ref.stack_alphabet
      ∧ (∀ (q : Str) (X : Char),
          (((q, 0), none, X), ((q, 2), ([X] : Str))) ∈ C_ref.transitions ↔
          (q ∈ P_ref.states ∧ X ∈ P_ref.stack_alphabet
            ∧ hasKey P_ref.transitions (q, none, X) = false))
      ∧ (∀ kv ∈ C_ref.transitions, kv.1.1.2 = 1 → kv.2.1.2 ≠ 2)) :=
  ⟨⟨by unfold SourceWF DetInvP; decide, rfl, by decide, rfl⟩,
    C2_complement_structure P_ref "q0".data C_ref
      (by unfold SourceWF DetInvP; decide) rfl (by decide) rfl⟩

/-! ## String and label lemmas for the renaming utility -/

theorem afterLastColon_no_colon (s : Str) : ∀ c ∈ afterLastColon s, c ≠ ':' := by
  intro c hc
  rw [afterLastColon, List.mem_reverse] at hc
  have := List.mem_takeWhile_imp hc
  simpa using this

theorem afterLastColon_of_no_colon {s : Str} (h : ∀ c ∈ s, c ≠ ':') :
    afterLastColon s = s := by
  rw [afterLastColon]
  rw [List.takeWhile_eq_self_iff.mpr (by intro x hx; simpa using h x (List.mem_reverse.mp hx))]
  exact List.reverse_reverse s

theorem takeWhile_append_stop (p : Char → Bool) :
    ∀ (l1 : Str) (x : Char) (l2 : Str), p x = false →
    ((l1 ++ x :: l2).takeWhile p) = l1.takeWhile p := by
  intro l1
  induction l1 with
  | nil =>
    intro x l2 hx
    simp [List.takeWhile, hx]
  | cons a as ih =>
    intro x l2 hx
    show List.takeWhile p (a :: (as ++ x :: l2)) = _
    rw [List.takeWhile_cons, List.takeWhile_cons]
    cases hpa : p a with
    | false => rfl
    | true => rw [ih x l2 hx]

theorem afterLastColon_temp (m : Str) :
    afterLastColon ("temp:".data ++ m) = afterLastColon m := by
  rw [afterLastColon, afterLastColon]
  rw [List.reverse_append]
  rw [show ("temp:".data : Str).reverse = ':' :: "pmet".data from rfl]
  rw [takeWhile_append_stop _ m.reverse ':' "pmet".data (by decide)]

theorem startsWithTemp_append (m : Str) :
    strStartsWithTemp ("temp:".data ++ m) = true := by
  rw [strStartsWithTemp]
  simp [List.isPrefixOf_iff_prefix]

theorem colon_mem_of_temp {s : Str} (h : strStartsWithTemp s = true) : ':' ∈ s := by
  rw [strStartsWithTemp, List.isPrefixOf_iff_prefix] at h
  obtain ⟨t, rfl⟩ := h
  exact List.mem_append_left _ (by decide)

theorem no_colon_not_temp {s : Str} (h : ∀ c ∈ s, c ≠ ':') :
    strStartsWithTemp s = false := by
  cases hc : strStartsWithTemp s with
  | false => rfl
  | true => exact absurd rfl (h ':' (colon_mem_of_temp hc))

theorem digitChar_ne_colon (d : Nat) : Nat.digitChar d ≠ ':' := by
  by_cases h : d < 16
  · interval_cases d <;> decide
  · have h0 : d ≠ 0 := by omega
    have h1 : d ≠ 1 := by omega
    have h2 : d ≠ 2 := by omega
    have h3 : d ≠ 3 := by omega
    have h4 : d ≠ 4 := by omega
    have h5 : d ≠ 5 := by omega
    have h6 : d ≠ 6 := by omega
    have h7 : d ≠ 7 := by omega
    have h8 : d ≠ 8 := by omega
    have h9 : d ≠ 9 := by omega
    have h10 : d ≠ 10 := by omega
    have h11 : d ≠ 11 := by omega
    have h12 : d ≠ 12 := by omega
    have h13 : d ≠ 13 := by omega
    have h14 : d ≠ 14 := by omega
    have h15 : d ≠ 15 := by omega
    unfold Nat.digitChar
    rw [if_neg h0, if_neg h1, if_neg h2, if_neg h3, if_neg h4, if_neg h5, if_neg h6,
      if_neg h7, if_neg h8, if_neg h9, if_neg h10, if_neg h11, if_neg h12, if_neg h13,
      if_neg h14, if_neg h15]
    decide

theorem digitVal_digitChar {d : Nat} (h : d < 10) : digitVal (Nat.digitChar d) = d := by
  interval_cases d <;> rfl

theorem littleVal_natCharsAux : ∀ (f n : Nat), n ≤ f → littleVal (natCharsAux f n) = n := by
  intro f
  induction f with
  | zero =>
    intro n hn
    obtain rfl : n = 0 := Nat.le_zero.mp hn
    rfl
  | succ f ih =>
    intro n hn
    cases n with
    | zero => rfl
    | succ n =>
      show littleVal (Nat.digitChar ((n + 1) % 10) :: natCharsAux f ((n + 1) / 10)) = n + 1
      rw [littleVal]
      rw [ih ((n + 1) / 10) (by
        have h1 : (n + 1) / 10 < n + 1 := Nat.div_lt_self (Nat.succ_pos n) (by decide)
        omega)]
      rw [digitVal_digitChar (Nat.mod_lt _ (by decide))]
      exact Nat.mod_add_div (n + 1) 10

theorem littleVal_natChars (n : Nat) : littleVal (natChars n).reverse = n := by
  rw [natChars, List.reverse_reverse]
  exact littleVal_natCharsAux n n (Nat.le_refl n)

theorem natChars_injective : Function.Injective natChars := by
  intro m n h
  have := congrArg (fun l => littleVal (List.reverse l)) h
  simpa [littleVal_natChars] using this

theorem natChars_ne_zeroChar {n : Nat} (h : 1 ≤ n) : natChars n ≠ ['0'] := by
  intro hEq
  have := littleVal_natChars n
  rw [hEq] at this
  simp [littleVal, digitVal] at this
  omega

theorem mem_natChars_digit : ∀ (f n : Nat) (c : Char), c ∈ natCharsAux f n →
    ∃ d, c = Nat.digitChar d := by
  intro f
  induction f with
  | zero => intro n c h; cases h
  | succ f ih =>
    intro n c h
    cases n with
    | zero => cases h
    | succ n =>
      rcases List.mem_cons.mp h with rfl | h'
      · exact ⟨(n + 1) % 10, rfl⟩
      · exact ih _ c h'

theorem natChars_no_colon (n : Nat) : ∀ c ∈ natChars n, c ≠ ':' := by
  intro c hc
  rw [natChars, List.mem_reverse] at hc
  obtain ⟨d, rfl⟩ := mem_natChars_digit n n c hc
  exact digitChar_ne_colon d

theorem canonLabel_no_colon (i : Nat) : ∀ c ∈ ('q' :: natChars (i + 1) : Str), c ≠ ':' := by
  intro c hc
  rcases List.mem_cons.mp hc with rfl | h'
  · decide
  · exact natChars_no_colon _ c h'

theorem canonLabel_not_temp (i : Nat) :
    strStartsWithTemp ('q' :: natChars (i + 1)) = false := rfl

theorem q0_label_no_colon : ∀ c ∈ ("q0".data : Str), c ≠ ':' := by decide

theorem q0_label_not_temp : strStartsWithTemp "q0".data = false := rfl

theorem q0_label_ne_canon (i : Nat) : ("q0".data : Str) ≠ 'q' :: natChars (i + 1) := by
  intro h
  rw [show ("q0".data : Str) = 'q' :: ['0'] from rfl] at h
  have := (List.cons.injEq _ _ _ _).mp h
  exact natChars_ne_zeroChar (Nat.le_add_left 1 i) this.2.symm

theorem canonLabel_injective : ∀ i j : Nat,
    ('q' :: natChars (i + 1) : Str) = 'q' :: natChars (j + 1) → i = j := by
  intro i j h
  have := (List.cons.injEq _ _ _ _).mp h
  have := natChars_injective this.2
  omega

/-! ## freshTemp lemmas -/

theorem freshTemp_not_mem_aux : ∀ (k : Nat) (states : List Str) (n : Str),
    maxLen states + 1 - n.length ≤ k → freshTemp states n ∉ states := by
  intro k
  induction k with
  | zero =>
    intro states n hk h
    rw [freshTemp] at h
    have hle : ∀ l : List Str, ∀ m : Str, m ∈ l → m.length ≤ maxLen l := by
      intro l
      induction l with
      | nil => intro m hm; cases hm
      | cons x xs ih =>
        intro m hm
        rcases List.mem_cons.mp hm with rfl | h'
        · exact Nat.le_max_left _ _
        · exact Nat.le_trans (ih m h') (Nat.le_max_right _ _)
    split at h
    · rename_i hmem
      have h1 := hle states n hmem
      omega
    · rename_i hmem
      exact hmem h
  | succ k ih =>
    intro states n hk h
    rw [freshTemp] at h
    split at h
    · rename_i hmem
      refine ih states ("temp:".data ++ n) ?_ h
      have hl : ("temp:".data ++ n).length = n.length + 5 := by
        rw [List.length_append, show ("temp:".data : Str).length = 5 from rfl]
        omega
      omega
    · rename_i hmem
      exact hmem h

theorem freshTemp_not_mem (states : List Str) (n : Str) : freshTemp states n ∉ states :=
  freshTemp_not_mem_aux (maxLen states + 1 - n.length) states n (Nat.le_refl _)

theorem freshTemp_shape_aux : ∀ (k : Nat) (states : List Str) (n : Str),
    maxLen states + 1 - n.length ≤ k →
    freshTemp states n = n
    ∨ (strStartsWithTemp (freshTemp states n) = true
        ∧ afterLastColon (freshTemp states n) = afterLastColon n) := by
  intro k
  induction k with
  | zero =>
    intro states n hk
    rw [freshTemp]
    split
    · rename_i hmem
      have hle : ∀ l : List Str, ∀ m : Str, m ∈ l → m.length ≤ maxLen l := by
        intro l
        induction l with
        | nil => intro m hm; cases hm
        | cons x xs ih =>
          intro m hm
          rcases List.mem_cons.mp hm with rfl | h'
          · exact Nat.le_max_left _ _
          · exact Nat.le_trans (ih m h') (Nat.le_max_right _ _)
      have h1 := hle states n hmem
      omega
    · exact Or.inl rfl
  | succ k ih =>
    intro states n hk
    rw [freshTemp]
    split
    · rename_i hmem
      have hl : ("temp:".data ++ n).length = n.length + 5 := by
        rw [List.length_append, show ("temp:".data : Str).length = 5 from rfl]
        omega
      rcases ih states ("temp:".data ++ n) (by omega) with h | ⟨h1, h2⟩
      · refine Or.inr ?_
        rw [h]
        exact ⟨startsWithTemp_append n, afterLastColon_temp n⟩
      · exact Or.inr ⟨h1, by rw [h2]; exact afterLastColon_temp n⟩
    · exact Or.inl rfl

theorem freshTemp_shape (states : List Str) (n : Str) :
    freshTemp states n = n
    ∨ (strStartsWithTemp (freshTemp states n) = true
        ∧ afterLastColon (freshTemp states n) = afterLastColon n) :=
  freshTemp_shape_aux (maxLen states + 1 - n.length) states n (Nat.le_refl _)

/-! ## Ordering and single-rename lemmas -/

theorem removeKey_perm : ∀ (l : List (Str × Str)) (e : Str × Str), e ∈ l →
    (l.map (·.1)).Nodup → l.Perm (e :: removeKey l e.1) := by
  intro l
  induction l with
  | nil => intro e he; cases he
  | cons x xs ih =>
    intro e he hnd
    by_cases hx : x.1 = e.1
    · rcases List.mem_cons.mp he with rfl | hexs
      · rw [show removeKey (e :: xs) e.1 = xs by simp [removeKey]]
      · exfalso
        have h1 : e.1 ∈ xs.map (·.1) := List.mem_map_of_mem (·.1) hexs
        have h2 := (List.nodup_cons.mp hnd).1
        apply h2
        show x.1 ∈ xs.map (·.1)
        rw [hx]
        exact h1
    · have hexs : e ∈ xs := by
        rcases List.mem_cons.mp he with rfl | hexs
        · exact absurd rfl hx
        · exact hexs
      have hperm := ih e hexs (List.nodup_cons.mp hnd).2
      rw [show removeKey (x :: xs) e.1 = x :: removeKey xs e.1 by simp [removeKey, hx]]
      exact (hperm.cons x).trans (List.Perm.swap e x _)

theorem map_congr_id {β : Type} {f : β → β} :
    ∀ {l : List β}, (∀ a ∈ l, f a = a) → l.map f = l := by
  intro l
  induction l with
  | nil => intro _; rfl
  | cons a as ih =>
    intro h
    show f a :: as.map f = a :: as
    rw [h a (List.mem_cons_self _ _), ih fun b hb => h b (by simp [hb])]

theorem mem_filter_ne {l : List Str} {a x : Str} :
    x ∈ l.filter (fun s => decide (s ≠ a)) ↔ x ∈ l ∧ x ≠ a := by
  rw [List.mem_filter]
  simp

theorem perm_cons_filter_ne : ∀ (l : List Str) (a : Str), a ∈ l → l.Nodup →
    l.Perm (a :: l.filter fun s => decide (s ≠ a)) := by
  intro l
  induction l with
  | nil => intro a h _; cases h
  | cons x xs ih =>
    intro a ha hnd
    by_cases hxa : x = a
    · subst hxa
      have hfe : (xs.filter fun s => decide (s ≠ x)) = xs := by
        rw [List.filter_eq_self]
        intro b hb
        have hbx : b ≠ x := by rintro rfl; exact (List.nodup_cons.mp hnd).1 hb
        simpa using hbx
      rw [List.filter_cons, if_neg (by simp), hfe]
    · have haxs : a ∈ xs := by
        rcases List.mem_cons.mp ha with rfl | h
        · exact absurd rfl hxa
        · exact h
      have h1 := ih a haxs (List.nodup_cons.mp hnd).2
      rw [List.filter_cons, if_pos (by simpa using hxa)]
      exact (h1.cons x).trans (List.Perm.swap a x _)

theorem SimRel_comp {φ ψ : Str → Str} {A B C : APD Str}
    (h1 : SimRel φ A B) (h2 : SimRel ψ B C) : SimRel (fun s => ψ (φ s)) A C := by
  obtain ⟨hs1, hi1, hf1, ht1, hia1, hsa1, hss1⟩ := h1
  obtain ⟨hs2, hi2, hf2, ht2, hia2, hsa2, hss2⟩ := h2
  refine ⟨?_, ?_, ?_, ?_, ?_, ?_, ?_⟩
  · refine hs2.trans ((hs1.map ψ).trans ?_)
    rw [List.map_map]
    exact List.Perm.refl _
  · rw [hi2, hi1]
    cases A.initial_state <;> rfl
  · refine hf2.trans ((hf1.map ψ).trans ?_)
    rw [List.map_map]
    exact List.Perm.refl _
  · rw [ht2, ht1, List.map_map]
    rfl
  · rw [hia2, hia1]
  · rw [hsa2, hsa1]
  · rw [hss2, hss1]

theorem GoodRen_comp {φ ψ : Str → Str} {A B C : APD Str}
    (h1 : GoodRen φ A B) (h2 : GoodRen ψ B C) : GoodRen (fun s => ψ (φ s)) A C := by
  obtain ⟨hsim1, hinj1, hwfB⟩ := h1
  obtain ⟨hsim2, hinj2, hwfC⟩ := h2
  refine ⟨SimRel_comp hsim1 hsim2, ?_, hwfC⟩
  intro s hs t ht h
  have hφs : φ s ∈ B.states := hsim1.1.mem_iff.mpr (List.mem_map_of_mem φ hs)
  have hφt : φ t ∈ B.states := hsim1.1.mem_iff.mpr (List.mem_map_of_mem φ ht)
  exact hinj1 s hs t ht (hinj2 (φ s) hφs (φ t) hφt h)

theorem GoodRen_id {A : APD Str} (hwf : WFren A) : GoodRen (fun s => s) A A := by
  refine ⟨⟨?_, ?_, ?_, ?_, rfl, rfl, rfl⟩, ?_, hwf⟩
  · rw [map_congr_id fun a _ => rfl]
  · cases A.initial_state <;> rfl
  · rw [map_congr_id fun a _ => rfl]
  · rw [map_congr_id fun kv _ => (rfl : renKV (fun s => s) kv = kv)]
  · intro s _ t _ h
    exact h

theorem rename_state_good (A : APD Str) (old new : Str)
    (hwf : WFren A) (hold : old ∈ A.states) (hsafe : new ∉ A.states ∨ new = old) :
    GoodRen (fun s => if s = old then new else s) A (rename_state A old new) := by
  obtain ⟨hnds, hndf, hfs, hends, hinit⟩ := hwf
  by_cases heq : old = new
  · subst heq
    rw [show rename_state A old old = A by simp [rename_state]]
    have hσ : ∀ s : Str, (if s = old then old else s) = s := by
      intro s
      split <;> simp_all
    refine ⟨⟨?_, ?_, ?_, ?_, rfl, rfl, rfl⟩, ?_, hnds, hndf, hfs, hends, hinit⟩
    · rw [map_congr_id fun a _ => hσ a]
    · cases A.initial_state with
      | none => rfl
      | some x => show some x = some (if x = old then old else x); rw [hσ]
    · rw [map_congr_id fun a _ => hσ a]
    · rw [map_congr_id fun kv _ => show renKV (fun s => if s = old then old else s) kv = kv by
        show ((if kv.1.1 = old then old else kv.1.1, kv.1.2.1, kv.1.2.2),
          (if kv.2.1 = old then old else kv.2.1, kv.2.2)) = kv
        rw [hσ, hσ]]
    · intro s _ t _ h
      replace h : (if s = old then old else s) = (if t = old then old else t) := h
      rw [hσ, hσ] at h
      exact h
  · have hnewmem : new ∉ A.states := by
      rcases hsafe with h | h
      · exact h
      · exact absurd h.symm heq
    have hrw : rename_state A old new = rename_state_in_transitions
        { A with
          states := setAdd (A.states.filter fun s => s ≠ old) new
          initial_state := if A.initial_state = some old then some new else A.initial_state
          final_states := if old ∈ A.final_states
            then setAdd (A.final_states.filter fun s => s ≠ old) new
            else A.final_states } old new := by
      rw [rename_state, if_neg heq]
    rw [hrw]
    have hnewfil : new ∉ (A.states.filter fun s => decide (s ≠ old)) := by
      intro h
      exact hnewmem (List.mem_of_mem_filter h)
    have hstates_eq : setAdd (A.states.filter fun s => decide (s ≠ old)) new
        = (A.states.filter fun s => decide (s ≠ old)) ++ [new] := by
      rw [setAdd, if_neg hnewfil]
    have hfilter_map : ∀ l : List Str,
        ((l.filter fun s => decide (s ≠ old)).map fun s => if s = old then new else s)
          = l.filter fun s => decide (s ≠ old) := by
      intro l
      apply map_congr_id
      intro a ha
      exact if_neg (mem_filter_ne.mp ha).2
    have hperm_gen : ∀ l : List Str, l.Nodup → old ∈ l →
        ((l.filter fun s => decide (s ≠ old)) ++ [new]).Perm
          (l.map fun s => if s = old then new else s) := by
      intro l hnd hol
      refine (List.perm_append_singleton new _).trans ?_
      have h1 := (perm_cons_filter_ne l old hol hnd).map fun s => if s = old then new else s
      have h2 : (List.map (fun s => if s = old then new else s)
            (old :: (l.filter fun s => decide (s ≠ old))))
          = new :: (l.filter fun s => decide (s ≠ old)) := by
        rw [List.map_cons, hfilter_map l]
        rw [if_pos (Eq.refl old)]
      rw [h2] at h1
      exact h1.symm
    refine ⟨⟨?_, ?_, ?_, rfl, rfl, rfl, rfl⟩, ?_, ?_⟩
    · show (setAdd (A.states.filter fun s => decide (s ≠ old)) new).Perm _
      rw [hstates_eq]
      exact hperm_gen A.states hnds hold
    · show (if A.initial_state = some old then some new else A.initial_state) = _
      cases hio : A.initial_state with
      | none => simp
      | some x =>
        by_cases hxo : x = old
        · subst hxo
          rw [if_pos rfl]
          show some new = some (if x = x then new else x)
          rw [if_pos (Eq.refl x)]
        · rw [if_neg (by simpa using hxo)]
          show some x = some (if x = old then new else x)
          rw [if_neg hxo]
    · show (if old ∈ A.final_states then setAdd (A.final_states.filter fun s => s ≠ old) new
          else A.final_states).Perm _
      by_cases hofin : old ∈ A.final_states
      · rw [if_pos hofin]
        have hnf : new ∉ (A.final_states.filter fun s => decide (s ≠ old)) := by
          intro h
          exact hnewmem (hfs new (List.mem_of_mem_filter h))
        rw [setAdd, if_neg hnf]
        exact hperm_gen A.final_states hndf hofin
      · rw [if_neg hofin]
        rw [map_congr_id (fun a ha =>
          if_neg (fun (hc : a = old) => hofin (hc ▸ ha)))]
    · intro s hs t ht h
      replace h : (if s = old then new else s) = (if t = old then new else t) := h
      by_cases hso : s = old <;> by_cases hto : t = old
      · rw [hso, hto]
      · rw [if_pos hso, if_neg hto] at h
        exact absurd (h ▸ ht) hnewmem
      · rw [if_neg hso, if_pos hto] at h
        exact absurd (h.symm ▸ hs) hnewmem
      · rw [if_neg hso, if_neg hto] at h
        exact h
    · -- WFren of the result
      have hmemS : ∀ x : Str, x ∈ setAdd (A.states.filter fun s => decide (s ≠ old)) new ↔
          ((x ∈ A.states ∧ x ≠ old) ∨ x = new) := by
        intro x
        rw [hstates_eq, List.mem_append, List.mem_singleton, mem_filter_ne]
      refine ⟨?_, ?_, ?_, ?_, ?_⟩
      · show (setAdd (A.states.filter fun s => decide (s ≠ old)) new).Nodup
        rw [hstates_eq]
        rw [List.nodup_append]
        refine ⟨hnds.filter _, List.nodup_singleton new, ?_⟩
        intro x hx hx2
        rw [List.mem_singleton] at hx2
        subst hx2
        exact hnewmem (List.mem_of_mem_filter hx)
      · show (if old ∈ A.final_states
            then setAdd (A.final_states.filter fun s => s ≠ old) new
            else A.final_states).Nodup
        by_cases hofin : old ∈ A.final_states
        · rw [if_pos hofin]
          have hnf : new ∉ (A.final_states.filter fun s => decide (s ≠ old)) := by
            intro h
            exact hnewmem (hfs new (List.mem_of_mem_filter h))
          rw [setAdd, if_neg hnf]
          rw [List.nodup_append]
          refine ⟨hndf.filter _, List.nodup_singleton new, ?_⟩
          intro x hx hx2
          rw [List.mem_singleton] at hx2
          subst hx2
          exact hnewmem (hfs _ (List.mem_of_mem_filter hx))
        · rw [if_neg hofin]
          exact hndf
      · intro x hx
        refine (hmemS x).mpr ?_
        replace hx : x ∈ (if old ∈ A.final_states
            then setAdd (A.final_states.filter fun s => s ≠ old) new
            else A.final_states) := hx
        by_cases hofin : old ∈ A.final_states
        · rw [if_pos hofin, setAdd] at hx
          by_cases hnf : new ∈ (A.final_states.filter fun s => decide (s ≠ old))
          · rw [if_pos hnf] at hx
            exact Or.inl ⟨hfs x (List.mem_of_mem_filter hx), (mem_filter_ne.mp hx).2⟩
          · rw [if_neg hnf, List.mem_append, List.mem_singleton] at hx
            rcases hx with hx | hx
            · exact Or.inl ⟨hfs x (List.mem_of_mem_filter hx), (mem_filter_ne.mp hx).2⟩
            · exact Or.inr hx
        · rw [if_neg hofin] at hx
          exact Or.inl ⟨hfs x hx, by rintro rfl; exact hofin hx⟩
      · intro kv hkv
        obtain ⟨kv0, hkv0, rfl⟩ := List.mem_map.mp hkv
        constructor
        · refine (hmemS (if kv0.1.1 = old then new else kv0.1.1)).mpr ?_
          by_cases h : kv0.1.1 = old
          · rw [if_pos h]
            exact Or.inr rfl
          · rw [if_neg h]
            exact Or.inl ⟨(hends kv0 hkv0).1, h⟩
        · refine (hmemS (if kv0.2.1 = old then new else kv0.2.1)).mpr ?_
          by_cases h : kv0.2.1 = old
          · rw [if_pos h]
            exact Or.inr rfl
          · rw [if_neg h]
            exact Or.inl ⟨(hends kv0 hkv0).2, h⟩
      · intro q hq
        refine (hmemS q).mpr ?_
        revert hq
        show (if A.initial_state = some old then some new else A.initial_state) = some q → _
        by_cases hio : A.initial_state = some old
        · rw [if_pos hio]
          intro hq
          injection hq with hq
          exact Or.inr hq.symm
        · rw [if_neg hio]
          intro hq
          refine Or.inl ⟨hinit q hq, ?_⟩
          rintro rfl
          exact hio hq

/-! ## The ordering loop: every pending rename lands on its target, possibly
through a temporary name -/

theorem simrel_mem_target {φ : Str → Str} {A B : APD Str} (h : SimRel φ A B)
    {s : Str} (hs : s ∈ A.states) : φ s ∈ B.states :=
  h.1.mem_iff.mpr (List.mem_map_of_mem φ hs)

theorem simrel_mem_source {φ : Str → Str} {A B : APD Str} (h : SimRel φ A B)
    {t : Str} (ht : t ∈ B.states) : ∃ u ∈ A.states, φ u = t :=
  List.mem_map.mp (h.1.mem_iff.mp ht)

theorem ren1_self (old new : Str) : ren1 old new old = new := if_pos rfl

theorem ren1_of_ne {old new s : Str} (h : s ≠ old) : ren1 old new s = s := if_neg h

theorem ren1_good (A : APD Str) (old new : Str)
    (hwf : WFren A) (hold : old ∈ A.states) (hsafe : new ∉ A.states ∨ new = old) :
    GoodRen (ren1 old new) A (rename_state A old new) :=
  rename_state_good A old new hwf hold hsafe

/-- The pick condition of the ordering loop, as a proposition. -/
theorem findCond_true_iff (pending : List (Str × Str)) (e : Str × Str) :
    (decide (e.1 = e.2) || !(pending.any fun kv => decide (kv.1 = e.2))) = true ↔
      (e.1 = e.2 ∨ e.2 ∉ pending.map (·.1)) := by
  have hmem : e.2 ∈ pending.map (·.1) ↔
      (pending.any fun kv => decide (kv.1 = e.2)) = true := by
    rw [List.any_eq_true, List.mem_map]
    constructor
    · rintro ⟨kv, hkv, hEq⟩
      exact ⟨kv, hkv, by simpa using hEq⟩
    · rintro ⟨kv, hkv, hEq⟩
      exact ⟨kv, hkv, by simpa using hEq⟩
  constructor
  · intro h
    by_cases hee : e.1 = e.2
    · exact Or.inl hee
    · right
      rw [hmem]
      intro hany
      rw [decide_eq_false hee, hany] at h
      exact absurd h (by decide)
  · rintro (h | h)
    · rw [decide_eq_true h]
      rfl
    · rw [hmem] at h
      cases hany : (pending.any fun kv => decide (kv.1 = e.2)) with
      | false => simp
      | true => exact absurd hany h

theorem orderPhase : ∀ (fuel : Nat) (pending : List (Str × Str)) (B : APD Str),
    fuel = pending.length →
    WFren B →
    (pending.map (·.1)).Nodup →
    (∀ e ∈ pending, e.1 ∈ B.states) →
    (pending.map (·.2)).Nodup →
    (∀ e ∈ pending, ∀ c ∈ e.2, c ≠ ':') →
    (∀ e ∈ pending, ∀ s ∈ B.states, s ∉ pending.map (·.1) → e.2 ≠ s) →
    ∃ φ : Str → Str, GoodRen φ B ((orderRenamesAux fuel pending).foldl applyRename B) ∧
      (∀ s ∈ B.states, s ∉ pending.map (·.1) → φ s = s) ∧
      (∀ e ∈ pending, φ e.1 = e.2 ∨
        (strStartsWithTemp (φ e.1) = true ∧ afterLastColon (φ e.1) = e.2)) := by
  intro fuel
  induction fuel with
  | zero =>
    intro pending B h0 hwf _ _ _ _ _
    have hpe : pending = [] := List.eq_nil_of_length_eq_zero h0.symm
    subst hpe
    exact ⟨fun s => s, GoodRen_id hwf, fun s _ _ => rfl,
      fun e he => absurd he (List.not_mem_nil e)⟩
  | succ f ih =>
    intro pending B h0 hwf h1 h2 h3 h4 h5
    cases pending with
    | nil => exact absurd h0 (by simp)
    | cons e0 rest =>
      have hunf : orderRenamesAux (f + 1) (e0 :: rest)
          = match (e0 :: rest).find? (fun e => decide (e.1 = e.2)
              || !((e0 :: rest).any fun kv => decide (kv.1 = e.2))) with
            | some e => (e.1, e.2, false) :: orderRenamesAux f (removeKey (e0 :: rest) e.1)
            | none => (e0.1, e0.2, true) :: orderRenamesAux f rest := rfl
      have h1c : (e0.1 :: rest.map (·.1)).Nodup := h1
      have h3c : (e0.2 :: rest.map (·.2)).Nodup := h3
      cases hfind : (e0 :: rest).find? (fun e => decide (e.1 = e.2)
          || !((e0 :: rest).any fun kv => decide (kv.1 = e.2))) with
      | some ef =>
        have horder : orderRenamesAux (f + 1) (e0 :: rest)
            = (ef.1, ef.2, false) :: orderRenamesAux f (removeKey (e0 :: rest) ef.1) := by
          rw [hunf, hfind]
        have hmem_ef : ef ∈ e0 :: rest := List.mem_of_find?_eq_some hfind
        have hpef := @List.find?_some _ _ ef (e0 :: rest) hfind
        have hcond : ef.1 = ef.2 ∨ ef.2 ∉ (e0 :: rest).map (·.1) :=
          (findCond_true_iff (e0 :: rest) ef).mp hpef
        have hperm : (e0 :: rest).Perm (ef :: removeKey (e0 :: rest) ef.1) :=
          removeKey_perm (e0 :: rest) ef hmem_ef h1
        have hkperm : ((e0 :: rest).map (·.1)).Perm
            (ef.1 :: (removeKey (e0 :: rest) ef.1).map (·.1)) := hperm.map (·.1)
        have htperm : ((e0 :: rest).map (·.2)).Perm
            (ef.2 :: (removeKey (e0 :: rest) ef.1).map (·.2)) := hperm.map (·.2)
        have hknd : (ef.1 :: (removeKey (e0 :: rest) ef.1).map (·.1)).Nodup :=
          hkperm.nodup_iff.mp h1
        have htnd : (ef.2 :: (removeKey (e0 :: rest) ef.1).map (·.2)).Nodup :=
          htperm.nodup_iff.mp h3
        have hsub : ∀ x ∈ removeKey (e0 :: rest) ef.1, x ∈ e0 :: rest :=
          fun x hx => hperm.mem_iff.mpr (List.mem_cons_of_mem ef hx)
        have hlen : f = (removeKey (e0 :: rest) ef.1).length := by
          have hl := hperm.length_eq
          simp only [List.length_cons] at hl h0
          omega
        have hefB : ef.1 ∈ B.states := h2 ef hmem_ef
        have hsafe : ef.2 ∉ B.states ∨ ef.2 = ef.1 := by
          rcases hcond with hc | hc
          · exact Or.inr hc.symm
          · left
            intro hmemB
            exact (h5 ef hmem_ef ef.2 hmemB hc) rfl
        have hgood : GoodRen (ren1 ef.1 ef.2) B (rename_state B ef.1 ef.2) :=
          ren1_good B ef.1 ef.2 hwf hefB hsafe
        have hsim := hgood.1
        have hwfB' := hgood.2.2
        -- target of ef.2 is not a pending key of the remainder
        have hef2nk : ef.2 ∉ (removeKey (e0 :: rest) ef.1).map (·.1) := by
          intro hk
          rcases hcond with hc | hc
          · rw [← hc] at hk
            exact (List.nodup_cons.mp hknd).1 hk
          · exact hc (hkperm.mem_iff.mpr (List.mem_cons_of_mem _ hk))
        -- invariants for the remainder
        have h2' : ∀ e' ∈ removeKey (e0 :: rest) ef.1,
            e'.1 ∈ (rename_state B ef.1 ef.2).states := by
          intro e' he'
          have hne : e'.1 ≠ ef.1 := by
            intro hEq
            have hm : e'.1 ∈ (removeKey (e0 :: rest) ef.1).map (·.1) :=
              List.mem_map_of_mem (·.1) he'
            rw [hEq] at hm
            exact (List.nodup_cons.mp hknd).1 hm
          have hm := simrel_mem_target hsim (h2 e' (hsub e' he'))
          rwa [ren1_of_ne hne] at hm
        have h5' : ∀ e' ∈ removeKey (e0 :: rest) ef.1,
            ∀ s ∈ (rename_state B ef.1 ef.2).states,
            s ∉ (removeKey (e0 :: rest) ef.1).map (·.1) → e'.2 ≠ s := by
          intro e' he' s hsB' hsnk
          obtain ⟨u, huB, hu⟩ := simrel_mem_source hsim hsB'
          by_cases hue : u = ef.1
          · have hs : s = ef.2 := by rw [← hu, hue, ren1_self]
            intro hEq
            rw [hs] at hEq
            have hm : e'.2 ∈ (removeKey (e0 :: rest) ef.1).map (·.2) :=
              List.mem_map_of_mem (·.2) he'
            rw [hEq] at hm
            exact (List.nodup_cons.mp htnd).1 hm
          · have hs : s = u := by rw [← hu, ren1_of_ne hue]
            have hunk : u ∉ (e0 :: rest).map (·.1) := by
              intro hk
              rcases List.mem_cons.mp (hkperm.mem_iff.mp hk) with h | h
              · exact hue h
              · exact hsnk (by rw [hs]; exact h)
            rw [hs]
            exact h5 e' (hsub e' he') u huB hunk
        obtain ⟨φ', hg', hfix', hdone'⟩ := ih (removeKey (e0 :: rest) ef.1)
          (rename_state B ef.1 ef.2) hlen hwfB'
          (List.nodup_cons.mp hknd).2 h2' (List.nodup_cons.mp htnd).2
          (fun e' he' => h4 e' (hsub e' he')) h5'
        refine ⟨fun s => φ' (ren1 ef.1 ef.2 s), ?_, ?_, ?_⟩
        · rw [horder, List.foldl_cons]
          exact GoodRen_comp hgood hg'
        · intro s hsB hsnk
          have hne : s ≠ ef.1 := by
            intro hEq
            exact hsnk (hEq ▸ List.mem_map_of_mem (·.1) hmem_ef)
          have hsB' := simrel_mem_target hsim hsB
          show φ' (ren1 ef.1 ef.2 s) = s
          rw [ren1_of_ne hne] at hsB' ⊢
          refine hfix' s hsB' ?_
          intro hk
          exact hsnk (hkperm.mem_iff.mpr (List.mem_cons_of_mem _ hk))
        · intro e'' he''
          rcases List.mem_cons.mp (hperm.mem_iff.mp he'') with rfl | he'r
          · -- the selected entry lands exactly on its target
            left
            show φ' (ren1 e''.1 e''.2 e''.1) = e''.2
            rw [ren1_self]
            have hmB' : e''.2 ∈ (rename_state B e''.1 e''.2).states := by
              have := simrel_mem_target hsim hefB
              rwa [ren1_self] at this
            exact hfix' e''.2 hmB' hef2nk
          · have hne : e''.1 ≠ ef.1 := by
              intro hEq
              have hm : e''.1 ∈ (removeKey (e0 :: rest) ef.1).map (·.1) :=
                List.mem_map_of_mem (·.1) he'r
              rw [hEq] at hm
              exact (List.nodup_cons.mp hknd).1 hm
            have hv : (fun s => φ' (ren1 ef.1 ef.2 s)) e''.1 = φ' e''.1 := by
              show φ' (ren1 ef.1 ef.2 e''.1) = φ' e''.1
              rw [ren1_of_ne hne]
            rw [hv]
            exact hdone' e'' he'r
      | none =>
        have horder : orderRenamesAux (f + 1) (e0 :: rest)
            = (e0.1, e0.2, true) :: orderRenamesAux f rest := by
          rw [hunf, hfind]
        have hlen : f = rest.length := by
          simp only [List.length_cons] at h0
          omega
        have he0B : e0.1 ∈ B.states := h2 e0 (List.mem_cons_self e0 rest)
        have hgood : GoodRen (ren1 e0.1 (freshTemp B.states e0.2)) B
            (rename_state B e0.1 (freshTemp B.states e0.2)) :=
          ren1_good B e0.1 (freshTemp B.states e0.2) hwf he0B
            (Or.inl (freshTemp_not_mem B.states e0.2))
        have hsim := hgood.1
        have hwfB' := hgood.2.2
        have htnotB : freshTemp B.states e0.2 ∉ B.states := freshTemp_not_mem B.states e0.2
        have h2' : ∀ e' ∈ rest, e'.1 ∈ (rename_state B e0.1 (freshTemp B.states e0.2)).states := by
          intro e' he'
          have hne : e'.1 ≠ e0.1 := by
            intro hEq
            exact (List.nodup_cons.mp h1c).1 (hEq ▸ List.mem_map_of_mem (·.1) he')
          have hm := simrel_mem_target hsim (h2 e' (List.mem_cons_of_mem e0 he'))
          rwa [ren1_of_ne hne] at hm
        have h5' : ∀ e' ∈ rest, ∀ s ∈ (rename_state B e0.1 (freshTemp B.states e0.2)).states,
            s ∉ rest.map (·.1) → e'.2 ≠ s := by
          intro e' he' s hsB' hsnk
          obtain ⟨u, huB, hu⟩ := simrel_mem_source hsim hsB'
          by_cases hue : u = e0.1
          · have hs : s = freshTemp B.states e0.2 := by rw [← hu, hue, ren1_self]
            rw [hs]
            rcases freshTemp_shape B.states e0.2 with hsh | ⟨hsh, _⟩
            · rw [hsh]
              intro hEq
              exact (List.nodup_cons.mp h3c).1 (hEq ▸ List.mem_map_of_mem (·.2) he')
            · intro hEq
              exact h4 e' (List.mem_cons_of_mem e0 he') ':'
                (hEq ▸ colon_mem_of_temp hsh) rfl
          · have hs : s = u := by rw [← hu, ren1_of_ne hue]
            have hunk : u ∉ (e0 :: rest).map (·.1) := by
              intro hk
              rcases List.mem_cons.mp hk with h | h
              · exact hue h
              · exact hsnk (by rw [hs]; exact h)
            rw [hs]
            exact h5 e' (List.mem_cons_of_mem e0 he') u huB hunk
        obtain ⟨φ', hg', hfix', hdone'⟩ := ih rest
          (rename_state B e0.1 (freshTemp B.states e0.2)) hlen hwfB'
          (List.nodup_cons.mp h1c).2 h2' (List.nodup_cons.mp h3c).2
          (fun e' he' => h4 e' (List.mem_cons_of_mem e0 he')) h5'
        have htnk : freshTemp B.states e0.2 ∉ rest.map (·.1) := by
          intro hk
          obtain ⟨e', he', hEq⟩ := List.mem_map.mp hk
          exact htnotB (hEq ▸ h2 e' (List.mem_cons_of_mem e0 he'))
        refine ⟨fun s => φ' (ren1 e0.1 (freshTemp B.states e0.2) s), ?_, ?_, ?_⟩
        · rw [horder, List.foldl_cons]
          exact GoodRen_comp hgood hg'
        · intro s hsB hsnk
          have hne : s ≠ e0.1 := by
            intro hEq
            exact hsnk (hEq ▸ List.mem_map_of_mem (·.1) (List.mem_cons_self e0 rest))
          have hsB' := simrel_mem_target hsim hsB
          show φ' (ren1 e0.1 (freshTemp B.states e0.2) s) = s
          rw [ren1_of_ne hne] at hsB' ⊢
          refine hfix' s hsB' ?_
          intro hk
          exact hsnk (List.mem_cons_of_mem _ hk)
        · intro e'' he''
          rcases List.mem_cons.mp he'' with rfl | he'r
          · have hφt : φ' (freshTemp B.states e''.2) = freshTemp B.states e''.2 := by
              refine hfix' (freshTemp B.states e''.2) ?_ htnk
              have := simrel_mem_target hsim he0B
              rwa [ren1_self] at this
            have hv : (fun s => φ' (ren1 e''.1 (freshTemp B.states e''.2) s)) e''.1
                = freshTemp B.states e''.2 := by
              show φ' (ren1 e''.1 (freshTemp B.states e''.2) e''.1) = _
              rw [ren1_self, hφt]
            rw [hv]
            rcases freshTemp_shape B.states e''.2 with hsh | ⟨hsh1, hsh2⟩
            · exact Or.inl hsh
            · refine Or.inr ⟨hsh1, ?_⟩
              rw [hsh2]
              exact afterLastColon_of_no_colon (h4 e'' (List.mem_cons_self e'' rest))
          · have hne : e''.1 ≠ e0.1 := by
              intro hEq
              have hm : e''.1 ∈ rest.map (·.1) := List.mem_map_of_mem (·.1) he'r
              rw [hEq] at hm
              exact (List.nodup_cons.mp h1c).1 hm
            have hv : (fun s => φ' (ren1 e0.1 (freshTemp B.states e0.2) s)) e''.1
                = φ' e''.1 := by
              show φ' (ren1 e0.1 (freshTemp B.states e0.2) e''.1) = φ' e''.1
              rw [ren1_of_ne hne]
            rw [hv]
            exact hdone' e'' he'r

/-! ## The temp-stripping pass -/

theorem stripPhase : ∀ (todo : List Str) (B : APD Str),
    WFren B →
    todo.Nodup →
    (∀ s ∈ todo, s ∈ B.states) →
    (∀ s ∈ todo, strStartsWithTemp s = true → afterLastColon s ∉ B.states) →
    (∀ s ∈ todo, ∀ t ∈ todo, strStartsWithTemp s = true → strStartsWithTemp t = true →
      afterLastColon s = afterLastColon t → s = t) →
    ∃ φ : Str → Str, GoodRen φ B (todo.foldl (fun C s =>
        if strStartsWithTemp s then rename_state C s (afterLastColon s) else C) B) ∧
      (∀ s ∈ B.states, φ s =
        if s ∈ todo ∧ strStartsWithTemp s = true then afterLastColon s else s) := by
  intro todo
  induction todo with
  | nil =>
    intro B hwf _ _ _ _
    refine ⟨fun s => s, GoodRen_id hwf, ?_⟩
    intro s _
    simp
  | cons s0 rest ih =>
    intro B hwf hnd hsub hfree hinj
    by_cases htemp : strStartsWithTemp s0 = true
    · have hs0B : s0 ∈ B.states := hsub s0 (List.mem_cons_self s0 rest)
      have hstrB : afterLastColon s0 ∉ B.states :=
        hfree s0 (List.mem_cons_self s0 rest) htemp
      have hgood : GoodRen (ren1 s0 (afterLastColon s0)) B
          (rename_state B s0 (afterLastColon s0)) :=
        ren1_good B s0 (afterLastColon s0) hwf hs0B (Or.inl hstrB)
      have hsim := hgood.1
      have hwfB' := hgood.2.2
      have hstep : (if strStartsWithTemp s0 = true
            then rename_state B s0 (afterLastColon s0) else B)
          = rename_state B s0 (afterLastColon s0) := if_pos htemp
      have hsub' : ∀ s ∈ rest, s ∈ (rename_state B s0 (afterLastColon s0)).states := by
        intro s hs
        have hne : s ≠ s0 := by
          rintro rfl
          exact (List.nodup_cons.mp hnd).1 hs
        have hm := simrel_mem_target hsim (hsub s (List.mem_cons_of_mem s0 hs))
        rwa [ren1_of_ne hne] at hm
      have hfree' : ∀ s ∈ rest, strStartsWithTemp s = true →
          afterLastColon s ∉ (rename_state B s0 (afterLastColon s0)).states := by
        intro s hs hts hmem
        obtain ⟨u, huB, hu⟩ := simrel_mem_source hsim hmem
        by_cases hue : u = s0
        · rw [hue, ren1_self] at hu
          have hseq : s = s0 :=
            hinj s (List.mem_cons_of_mem s0 hs) s0 (List.mem_cons_self s0 rest)
              hts htemp hu.symm
          rw [hseq] at hs
          exact (List.nodup_cons.mp hnd).1 hs
        · rw [ren1_of_ne hue] at hu
          rw [hu] at huB
          exact hfree s (List.mem_cons_of_mem s0 hs) hts huB
      obtain ⟨φ', hg', hval'⟩ := ih (rename_state B s0 (afterLastColon s0)) hwfB'
        (List.nodup_cons.mp hnd).2 hsub' hfree'
        (fun s hs t ht => hinj s (List.mem_cons_of_mem s0 hs) t (List.mem_cons_of_mem s0 ht))
      refine ⟨fun s => φ' (ren1 s0 (afterLastColon s0) s), ?_, ?_⟩
      · rw [List.foldl_cons, hstep]
        exact GoodRen_comp hgood hg'
      · intro s hsB
        show φ' (ren1 s0 (afterLastColon s0) s) = _
        by_cases hss0 : s = s0
        · subst hss0
          rw [ren1_self]
          have hmem' : afterLastColon s ∈ (rename_state B s (afterLastColon s)).states := by
            have := simrel_mem_target hsim hs0B
            rwa [ren1_self] at this
          rw [hval' _ hmem']
          rw [if_neg (fun hc => hstrB (hsub _ (List.mem_cons_of_mem s hc.1)))]
          rw [if_pos ⟨List.mem_cons_self s rest, htemp⟩]
        · rw [ren1_of_ne hss0]
          have hm := simrel_mem_target hsim hsB
          rw [ren1_of_ne hss0] at hm
          rw [hval' s hm]
          by_cases hc : s ∈ rest ∧ strStartsWithTemp s = true
          · rw [if_pos hc, if_pos ⟨List.mem_cons_of_mem s0 hc.1, hc.2⟩]
          · rw [if_neg hc, if_neg (fun hc2 => ?_)]
            rcases List.mem_cons.mp hc2.1 with h | h
            · exact hss0 h
            · exact hc ⟨h, hc2.2⟩
    · have hstep : (if strStartsWithTemp s0 = true
            then rename_state B s0 (afterLastColon s0) else B)
          = B := if_neg htemp
      obtain ⟨φ', hg', hval'⟩ := ih B hwf
        (List.nodup_cons.mp hnd).2 (fun s hs => hsub s (List.mem_cons_of_mem s0 hs))
        (fun s hs => hfree s (List.mem_cons_of_mem s0 hs))
        (fun s hs t ht => hinj s (List.mem_cons_of_mem s0 hs) t (List.mem_cons_of_mem s0 ht))
      refine ⟨φ', ?_, ?_⟩
      · rw [List.foldl_cons, hstep]
        exact hg'
      · intro s hsB
        rw [hval' s hsB]
        by_cases hc : s ∈ rest ∧ strStartsWithTemp s = true
        · rw [if_pos hc, if_pos ⟨List.mem_cons_of_mem s0 hc.1, hc.2⟩]
        · rw [if_neg hc, if_neg (fun hc2 => ?_)]
          rcases List.mem_cons.mp hc2.1 with h | h
          · exact htemp (h ▸ hc2.2)
          · exact hc ⟨h, hc2.2⟩

/-! ## Acceptance is invariant under injective renaming -/

theorem getT_ren {φ : Str → Str} {S : List Str}
    (hinj : ∀ s ∈ S, ∀ t ∈ S, φ s = φ t → s = t) :
    ∀ (ts : List ((Str × Option Char × Char) × (Str × Str))),
    (∀ kv ∈ ts, kv.1.1 ∈ S) →
    ∀ {q : Str}, q ∈ S → ∀ (isym : Option Char) (X : Char),
    getT (ts.map (renKV φ)) (φ q, isym, X)
      = (getT ts (q, isym, X)).map (fun v => (φ v.1, v.2)) := by
  intro ts
  induction ts with
  | nil =>
    intro _ q hq isym X
    rfl
  | cons kv rest ih =>
    intro hts q hq isym X
    obtain ⟨⟨ks, ki, kX⟩, kp, kw⟩ := kv
    by_cases hk : ks = q ∧ ki = isym ∧ kX = X
    · obtain ⟨rfl, rfl, rfl⟩ := hk
      rw [getT, getT, List.map_cons,
        List.find?_cons_of_pos _ (by simp [renKV]),
        List.find?_cons_of_pos _ (by simp)]
      rfl
    · have hne1 : ¬((((ks, ki, kX), kp, kw) :
          (Str × Option Char × Char) × (Str × Str)).1 = (q, isym, X)) := by
        intro hEq
        apply hk
        simpa using hEq
      have hne2 : ¬((renKV φ ((ks, ki, kX), kp, kw)).1
          = ((φ q, isym, X) : Str × Option Char × Char)) := by
        intro hEq
        have h1 := congrArg (fun p => p.1) hEq
        have h2 := congrArg (fun p => p.2.1) hEq
        have h3 := congrArg (fun p => p.2.2) hEq
        apply hk
        exact ⟨hinj ks (hts _ (List.mem_cons_self _ _)) q hq h1, h2, h3⟩
      rw [getT, getT, List.map_cons,
        List.find?_cons_of_neg _ (by simpa using hne2),
        List.find?_cons_of_neg _ (by simpa using hne1)]
      exact ih (fun kv h => hts kv (List.mem_cons_of_mem _ h)) hq isym X

theorem get_transition_ren {φ : Str → Str} {A B : APD Str}
    (hsim : SimRel φ A B)
    (hinj : ∀ s ∈ A.states, ∀ t ∈ A.states, φ s = φ t → s = t)
    (hends : ∀ kv ∈ A.transitions, kv.1.1 ∈ A.states)
    {q : Str} (hq : q ∈ A.states) (isym : Option Char) (X : Char) :
    get_transition B (φ q) isym X
      = (get_transition A q isym X).map (fun v => (φ v.1, v.2)) := by
  rw [get_transition, get_transition, hsim.2.2.2.1]
  exact getT_ren hinj A.transitions hends hq isym X

theorem step_ren {φ : Str → Str} {A B : APD Str}
    (hsim : SimRel φ A B)
    (hinj : ∀ s ∈ A.states, ∀ t ∈ A.states, φ s = φ t → s = t)
    (hends : ∀ kv ∈ A.transitions, kv.1.1 ∈ A.states)
    {q : Str} (hq : q ∈ A.states) (w st : Str) :
    step B (φ q) w st = (step A q w st).map (fun c => (φ c.1, c.2.1, c.2.2)) := by
  cases hlast : st.getLast? with
  | none => simp [step, hlast]
  | some top =>
    have hE : get_transition B (φ q) none top
        = (get_transition A q none top).map (fun v => (φ v.1, v.2)) :=
      get_transition_ren hsim hinj hends hq none top
    cases w with
    | nil =>
      cases hge : get_transition A q none top with
      | none => simp [step, hlast, hE, hge]
      | some r => simp [step, hlast, hE, hge]
    | cons c wrest =>
      have hS : get_transition B (φ q) (some c) top
          = (get_transition A q (some c) top).map (fun v => (φ v.1, v.2)) :=
        get_transition_ren hsim hinj hends hq (some c) top
      cases hgs : get_transition A q (some c) top with
      | some r => simp [step, hlast, hS, hgs]
      | none =>
        cases hge : get_transition A q none top with
        | none => simp [step, hlast, hS, hgs, hE, hge]
        | some r => simp [step, hlast, hS, hgs, hE, hge]

theorem getT_mem {α : Type} [DecidableEq α]
    {ts : List ((α × Option Char × Char) × (α × Str))}
    {k : α × Option Char × Char} {v : α × Str} (h : getT ts k = some v) :
    ∃ kv ∈ ts, kv.2 = v := by
  rw [getT] at h
  cases hf : ts.find? (fun kv => decide (kv.1 = k)) with
  | none =>
    rw [hf] at h
    cases h
  | some kv =>
    rw [hf] at h
    injection h with h
    exact ⟨kv, List.mem_of_find?_eq_some hf, h⟩

theorem step_state_mem {α : Type} [DecidableEq α] {A : APD α}
    (hends : ∀ kv ∈ A.transitions, kv.2.1 ∈ A.states)
    {q p : α} {w st w' st' : Str}
    (h : step A q w st = some (p, w', st')) : p ∈ A.states := by
  cases hlast : st.getLast? with
  | none => simp [step, hlast] at h
  | some top =>
    cases w with
    | nil =>
      cases hge : get_transition A q none top with
      | none => simp [step, hlast, hge] at h
      | some r =>
        have hs : step A q [] st = some (r.1, ([] : Str), st.dropLast ++ r.2.reverse) := by
          simp [step, hlast, hge]
        rw [hs] at h
        injection h with h'
        have hp : p = r.1 := (congrArg (fun x => x.1) h').symm
        have hge' : getT A.transitions (q, none, top) = some r := hge
        obtain ⟨kv, hkv, hv⟩ := getT_mem hge'
        rw [hp, ← hv]
        exact hends kv hkv
    | cons c wrest =>
      cases hgs : get_transition A q (some c) top with
      | some r =>
        have hs : step A q (c :: wrest) st
            = some (r.1, wrest, st.dropLast ++ r.2.reverse) := by
          simp [step, hlast, hgs]
        rw [hs] at h
        injection h with h'
        have hp : p = r.1 := (congrArg (fun x => x.1) h').symm
        have hgs' : getT A.transitions (q, some c, top) = some r := hgs
        obtain ⟨kv, hkv, hv⟩ := getT_mem hgs'
        rw [hp, ← hv]
        exact hends kv hkv
      | none =>
        cases hge : get_transition A q none top with
        | none => simp [step, hlast, hgs, hge] at h
        | some r =>
          have hs : step A q (c :: wrest) st
              = some (r.1, c :: wrest, st.dropLast ++ r.2.reverse) := by
            simp [step, hlast, hgs, hge]
          rw [hs] at h
          injection h with h'
          have hp : p = r.1 := (congrArg (fun x => x.1) h').symm
          have hge' : getT A.transitions (q, none, top) = some r := hge
          obtain ⟨kv, hkv, hv⟩ := getT_mem hge'
          rw [hp, ← hv]
          exact hends kv hkv

theorem acceptCond_ren {φ : Str → Str} {A B : APD Str}
    (hsim : SimRel φ A B)
    (hinj : ∀ s ∈ A.states, ∀ t ∈ A.states, φ s = φ t → s = t)
    (hfs : ∀ s ∈ A.final_states, s ∈ A.states)
    (mode : String) {q : Str} (hq : q ∈ A.states) (w st : Str) :
    acceptCond B mode (φ q) w st = acceptCond A mode q w st := by
  have hmem : (φ q ∈ B.final_states) ↔ (q ∈ A.final_states) := by
    constructor
    · intro h
      obtain ⟨u, hu, huEq⟩ := List.mem_map.mp (hsim.2.2.1.mem_iff.mp h)
      rwa [← hinj u (hfs u hu) q hq huEq]
    · intro h
      exact hsim.2.2.1.mem_iff.mpr (List.mem_map_of_mem φ h)
  rw [acceptCond, acceptCond, decide_eq_decide.mpr hmem]

theorem acceptsFrom_succ_true {α : Type} [DecidableEq α] (A : APD α) (mode : String)
    (f : Nat) (q : α) (w st : Str) (h : acceptCond A mode q w st = true) :
    acceptsFrom A mode (f + 1) q w st = true := by
  simp [acceptsFrom, h]

theorem acceptsFrom_succ_stuck {α : Type} [DecidableEq α] (A : APD α) (mode : String)
    (f : Nat) (q : α) (w st : Str) (h1 : acceptCond A mode q w st = false)
    (h2 : step A q w st = none) :
    acceptsFrom A mode (f + 1) q w st = acceptCond A mode q w st := by
  simp [acceptsFrom, h1, h2]

theorem acceptsFrom_succ_step {α : Type} [DecidableEq α] (A : APD α) (mode : String)
    (f : Nat) (q : α) (w st : Str) {p : α} {w' st' : Str}
    (h1 : acceptCond A mode q w st = false)
    (h2 : step A q w st = some (p, w', st')) :
    acceptsFrom A mode (f + 1) q w st = acceptsFrom A mode f p w' st' := by
  simp [acceptsFrom, h1, h2]

theorem acceptsFrom_ren {φ : Str → Str} {A B : APD Str}
    (hsim : SimRel φ A B)
    (hinj : ∀ s ∈ A.states, ∀ t ∈ A.states, φ s = φ t → s = t)
    (hwfA : WFren A) (mode : String) :
    ∀ (fuel : Nat) {q : Str}, q ∈ A.states → ∀ (w st : Str),
    acceptsFrom B mode fuel (φ q) w st = acceptsFrom A mode fuel q w st := by
  intro fuel
  induction fuel with
  | zero =>
    intro q hq w st
    exact acceptCond_ren hsim hinj hwfA.2.2.1 mode hq w st
  | succ f ih =>
    intro q hq w st
    have hacr := acceptCond_ren hsim hinj hwfA.2.2.1 mode hq w st
    cases hab : acceptCond A mode q w st with
    | true =>
      rw [acceptsFrom_succ_true A mode f q w st hab,
        acceptsFrom_succ_true B mode f (φ q) w st (hacr.trans hab)]
    | false =>
      have hbf : acceptCond B mode (φ q) w st = false := hacr.trans hab
      cases hst : step A q w st with
      | none =>
        have hstB : step B (φ q) w st = none := by
          rw [step_ren hsim hinj (fun kv hkv => (hwfA.2.2.2.1 kv hkv).1) hq w st, hst]
          rfl
        rw [acceptsFrom_succ_stuck A mode f q w st hab hst,
          acceptsFrom_succ_stuck B mode f (φ q) w st hbf hstB, hacr]
      | some c =>
        obtain ⟨p, w', st'⟩ := c
        have hstB : step B (φ q) w st = some (φ p, w', st') := by
          rw [step_ren hsim hinj (fun kv hkv => (hwfA.2.2.2.1 kv hkv).1) hq w st, hst]
          rfl
        rw [acceptsFrom_succ_step A mode f q w st hab hst,
          acceptsFrom_succ_step B mode f (φ q) w st hbf hstB]
        exact ih (step_state_mem (fun kv hkv => (hwfA.2.2.2.1 kv hkv).2) hst) w' st'

theorem accepts_ren {φ : Str → Str} {A B : APD Str}
    (hsim : SimRel φ A B)
    (hinj : ∀ s ∈ A.states, ∀ t ∈ A.states, φ s = φ t → s = t)
    (hwfA : WFren A) (w : Str) (mode : String) :
    accepts B w mode = accepts A w mode := by
  cases hio : A.initial_state with
  | none =>
    have hB : B.initial_state = none := by rw [hsim.2.1, hio]; rfl
    have h1 : accepts A w mode = false := by
      unfold accepts
      rw [hio]
    have h2 : accepts B w mode = false := by
      unfold accepts
      rw [hB]
    rw [h1, h2]
  | some q0 =>
    have hB : B.initial_state = some (φ q0) := by rw [hsim.2.1, hio]; rfl
    have h1 : accepts A w mode
        = acceptsFrom A mode (w.length * 100 + 1000) q0 w [A.initial_stack_symbol] := by
      unfold accepts
      rw [hio]
    have h2 : accepts B w mode
        = acceptsFrom B mode (w.length * 100 + 1000) (φ q0) w [B.initial_stack_symbol] := by
      unfold accepts
      rw [hB]
    rw [h1, h2, hsim.2.2.2.2.2.2]
    exact acceptsFrom_ren hsim hinj hwfA mode _ (hwfA.2.2.2.2 q0 hio) w _

/-! ## The normalization mapping is admissible for the ordering loop -/

theorem normalizeMapping_spec (A : APD Str) (hwf : WFren A) :
    ((normalizeMapping A).map (·.1)).Nodup ∧
    (∀ e ∈ normalizeMapping A, e.1 ∈ A.states) ∧
    ((normalizeMapping A).map (·.2)).Nodup ∧
    (∀ e ∈ normalizeMapping A, ∀ c ∈ e.2, c ≠ ':') ∧
    (∀ s ∈ A.states, s ∈ (normalizeMapping A).map (·.1)) := by
  have hcanonnd : ∀ n : Nat, ((List.range n).map fun i => ('q' :: natChars (i + 1) : Str)).Nodup :=
    fun n => List.Nodup.map_on
      (fun i _ j _ h => canonLabel_injective i j h) (List.nodup_range n)
  cases hio : A.initial_state with
  | none =>
    have hm : normalizeMapping A
        = A.states.enum.map fun p => (p.2, 'q' :: natChars (p.1 + 1)) := by
      unfold normalizeMapping
      rw [hio]
    have hkeys : (normalizeMapping A).map (·.1) = A.states := by
      rw [hm, List.map_map]
      show List.map Prod.snd A.states.enum = A.states
      exact List.enum_map_snd A.states
    have htg : (normalizeMapping A).map (·.2)
        = (List.range A.states.length).map fun i => 'q' :: natChars (i + 1) := by
      rw [hm, List.map_map, ← List.enum_map_fst A.states, List.map_map]
      rfl
    refine ⟨?_, ?_, ?_, ?_, ?_⟩
    · rw [hkeys]
      exact hwf.1
    · intro e he
      have : e.1 ∈ (normalizeMapping A).map (·.1) := List.mem_map_of_mem (·.1) he
      rwa [hkeys] at this
    · rw [htg]
      exact hcanonnd _
    · intro e he
      rw [hm] at he
      obtain ⟨p, _, rfl⟩ := List.mem_map.mp he
      exact canonLabel_no_colon p.1
    · intro s hs
      rw [hkeys]
      exact hs
  | some q0 =>
    have hm : normalizeMapping A
        = (q0, "q0".data) ::
            ((A.states.filter fun s => s ≠ q0).enum.map
              fun p => (p.2, 'q' :: natChars (p.1 + 1))) := by
      unfold normalizeMapping
      rw [hio]
    have hkeys : (normalizeMapping A).map (·.1)
        = q0 :: (A.states.filter fun s => s ≠ q0) := by
      rw [hm, List.map_cons, List.map_map]
      show q0 :: List.map Prod.snd (A.states.filter fun s => s ≠ q0).enum = _
      rw [List.enum_map_snd]
    have htg : (normalizeMapping A).map (·.2)
        = "q0".data :: ((List.range (A.states.filter fun s => s ≠ q0).length).map
            fun i => 'q' :: natChars (i + 1)) := by
      rw [hm, List.map_cons, List.map_map, ← List.enum_map_fst, List.map_map]
      rfl
    refine ⟨?_, ?_, ?_, ?_, ?_⟩
    · rw [hkeys, List.nodup_cons]
      exact ⟨fun h => (mem_filter_ne.mp h).2 rfl, hwf.1.filter _⟩
    · intro e he
      have hk : e.1 ∈ (normalizeMapping A).map (·.1) := List.mem_map_of_mem (·.1) he
      rw [hkeys] at hk
      rcases List.mem_cons.mp hk with h | h
      · rw [h]
        exact hwf.2.2.2.2 q0 hio
      · exact (mem_filter_ne.mp h).1
    · rw [htg, List.nodup_cons]
      refine ⟨fun h => ?_, hcanonnd _⟩
      obtain ⟨i, _, hEq⟩ := List.mem_map.mp h
      exact q0_label_ne_canon i hEq.symm
    · intro e he
      rw [hm] at he
      rcases List.mem_cons.mp he with rfl | he'
      · exact q0_label_no_colon
      · obtain ⟨p, _, rfl⟩ := List.mem_map.mp he'
        exact canonLabel_no_colon p.1
    · intro s hs
      rw [hkeys]
      by_cases hsq : s = q0
      · exact hsq ▸ List.mem_cons_self _ _
      · exact List.mem_cons_of_mem _ (mem_filter_ne.mpr ⟨hs, hsq⟩)

/-- `normalize_states` realizes exactly the desired mapping: there is a
renaming `φ` relating the input to the output (injective on states,
permuting the registry, preserving everything else entrywise) that sends
every mapping key to its canonical label. -/
theorem normalize_states_good (A : APD Str) (hwf : WFren A) :
    ∃ φ : Str → Str, GoodRen φ A (normalize_states A) ∧
      ∀ e ∈ normalizeMapping A, φ e.1 = e.2 := by
  obtain ⟨hknd, hksub, htnd, hcolon, hcover⟩ := normalizeMapping_spec A hwf
  obtain ⟨φ1, hg1, hfix1, hdone1⟩ := orderPhase (normalizeMapping A).length
    (normalizeMapping A) A rfl hwf hknd hksub htnd hcolon
    (fun e he s hsA hns => absurd (hcover s hsA) hns)
  have hsim1 := hg1.1
  have hinj1 := hg1.2.1
  have hwf1 := hg1.2.2
  have htinj := List.inj_on_of_nodup_map htnd
  have hval : ∀ t ∈ ((orderRenamesAux (normalizeMapping A).length
        (normalizeMapping A)).foldl applyRename A).states,
      ∃ e ∈ normalizeMapping A, φ1 e.1 = t ∧
        (if strStartsWithTemp t then afterLastColon t else t) = e.2 := by
    intro t ht
    obtain ⟨u, huA, hu⟩ := simrel_mem_source hsim1 ht
    obtain ⟨e, he, hEq⟩ := List.mem_map.mp (hcover u huA)
    have hφet : φ1 e.1 = t := by rw [hEq]; exact hu
    refine ⟨e, he, hφet, ?_⟩
    rcases hdone1 e he with h | ⟨h1, h2⟩
    · rw [← hφet, h]
      rw [if_neg (by rw [no_colon_not_temp (hcolon e he)]; exact Bool.false_ne_true)]
    · rw [← hφet, if_pos h1, h2]
  have hfree : ∀ s ∈ ((orderRenamesAux (normalizeMapping A).length
        (normalizeMapping A)).foldl applyRename A).states,
      strStartsWithTemp s = true →
      afterLastColon s ∉ ((orderRenamesAux (normalizeMapping A).length
        (normalizeMapping A)).foldl applyRename A).states := by
    intro s hs hts hmem
    obtain ⟨e, he, hφe, hse⟩ := hval s hs
    obtain ⟨e', he', hφe', hse'⟩ := hval _ hmem
    have h1 : afterLastColon s = e.2 := by
      have h := hse
      rw [if_pos hts] at h
      exact h
    have hnt : strStartsWithTemp (afterLastColon s) = false :=
      no_colon_not_temp (afterLastColon_no_colon s)
    have h2 : afterLastColon s = e'.2 := by
      have h := hse'
      rw [if_neg (by rw [hnt]; exact Bool.false_ne_true)] at h
      exact h
    have hee : e = e' := htinj he he' (by rw [← h1, h2])
    have hs_eq : s = afterLastColon s := by
      rw [← hφe', ← hee, hφe]
    have hc := colon_mem_of_temp hts
    rw [hs_eq] at hc
    exact afterLastColon_no_colon s ':' hc rfl
  have hinjstrip : ∀ s ∈ ((orderRenamesAux (normalizeMapping A).length
        (normalizeMapping A)).foldl applyRename A).states,
      ∀ t ∈ ((orderRenamesAux (normalizeMapping A).length
        (normalizeMapping A)).foldl applyRename A).states,
      strStartsWithTemp s = true → strStartsWithTemp t = true →
      afterLastColon s = afterLastColon t → s = t := by
    intro s hs t ht hts htt hEq
    obtain ⟨e, he, hφe, hse⟩ := hval s hs
    obtain ⟨e', he', hφe', hse'⟩ := hval t ht
    have h1 : afterLastColon s = e.2 := by
      have h := hse
      rw [if_pos hts] at h
      exact h
    have h2 : afterLastColon t = e'.2 := by
      have h := hse'
      rw [if_pos htt] at h
      exact h
    have hee : e = e' := htinj he he' (by rw [← h1, ← h2, hEq])
    rw [← hφe, hee]
    exact hφe'
  obtain ⟨φ2, hg2, hval2⟩ := stripPhase
    ((orderRenamesAux (normalizeMapping A).length (normalizeMapping A)).foldl
      applyRename A).states
    ((orderRenamesAux (normalizeMapping A).length (normalizeMapping A)).foldl
      applyRename A)
    hwf1 hwf1.1 (fun s hs => hs) hfree hinjstrip
  refine ⟨fun s => φ2 (φ1 s), GoodRen_comp hg1 hg2, ?_⟩
  intro e he
  show φ2 (φ1 e.1) = e.2
  have hm1 : φ1 e.1 ∈ ((orderRenamesAux (normalizeMapping A).length
      (normalizeMapping A)).foldl applyRename A).states :=
    simrel_mem_target hsim1 (hksub e he)
  rw [hval2 _ hm1]
  rcases hdone1 e he with h | ⟨h1, h2⟩
  · rw [if_neg (fun hc => ?_)]
    · exact h
    · have hcc := hc.2
      rw [h, no_colon_not_temp (hcolon e he)] at hcc
      exact Bool.false_ne_true hcc
  · rw [if_pos ⟨hm1, h1⟩]
    exact h2

/-- C8: for every well-formed automaton with a marked initial state —
whatever rename permutation the canonical mapping induces, identity parts
and full cycles of length ≥ 2 alike — `normalize_states` produces a valid,
collision-free relabeling: the states are renamed by a function that is
injective on the state set (no two distinct original states collapse), the
initial state is mapped to the canonical first label `"q0"`, the number of
states is preserved, and the relabeled automaton accepts exactly the same
words as the original, for every word and under either acceptance mode
(the bounded fold embedding the ordering `while` loop never exhausts its
bound, so the function is total on every such input). -/
theorem C8_normalize_states_correct (A : APD Str) (q0 : Str)
    (hwf : WFren A) (hinit : A.initial_state = some q0) :
    (normalize_states A).initial_state = some "q0".data ∧
    (normalize_states A).states.Nodup ∧
    (normalize_states A).states.length = A.states.length ∧
    (∃ φ : Str → Str, SimRel φ A (normalize_states A) ∧ φ q0 = "q0".data ∧
      ∀ s ∈ A.states, ∀ t ∈ A.states, φ s = φ t → s = t) ∧
    ∀ (w : Str) (mode : String), accepts (normalize_states A) w mode = accepts A w mode := by
  obtain ⟨φ, hg, hmapval⟩ := normalize_states_good A hwf
  have hq0entry : (q0, "q0".data) ∈ normalizeMapping A := by
    unfold normalizeMapping
    rw [hinit]
    exact List.mem_cons_self _ _
  have hφq0 : φ q0 = "q0".data := hmapval _ hq0entry
  refine ⟨?_, hg.2.2.1, ?_, ⟨φ, hg.1, hφq0, hg.2.1⟩, ?_⟩
  · rw [hg.1.2.1, hinit]
    show some (φ q0) = some "q0".data
    rw [hφq0]
  · rw [hg.1.1.length_eq, List.length_map]
  · intro w mode
    exact accepts_ren hg.1 hg.2.1 hwf w mode

/-- Witness for C8 at a full 2-cycle: in `W_cyc` the initial state is named
`"q1"` and the other state `"q0"`, so normalization must swap the two
names; the run terminates with initial label `"q0"`, both states kept, and
acceptance preserved. -/
theorem C8_witness :
    (normalize_states W_cyc).initial_state = some "q0".data ∧
    (normalize_states W_cyc).states.length = W_cyc.states.length ∧
    accepts (normalize_states W_cyc) ['a'] "final_state"
      = accepts W_cyc ['a'] "final_state" := by
  have hwf : WFren W_cyc := by
    refine ⟨by decide, by decide, by decide, by decide, ?_⟩
    intro q hq
    have hq' : some ("q1".data : Str) = some q := hq
    injection hq' with h
    rw [← h]
    decide
  have h := C8_normalize_states_correct W_cyc "q1".data hwf rfl
  exact ⟨h.1, h.2.2.1, h.2.2.2.2 ['a'] "final_state"⟩

/-! ## The builder invariant is preserved by every operation -/

theorem mem_setAdd_self {β : Type} [DecidableEq β] (l : List β) (x : β) :
    x ∈ setAdd l x := by
  unfold setAdd
  split
  · rename_i h
    exact h
  · exact List.mem_append_right _ (List.mem_singleton.mpr rfl)

theorem BInv_init : BInv (newAPD Str) := by
  refine ⟨⟨List.nodup_nil, List.nodup_nil, ?_, ?_, ?_⟩, List.nodup_nil, ?_, ?_⟩
  · intro s hs
    exact absurd hs (List.not_mem_nil s)
  · intro kv hkv
    exact absurd hkv (List.not_mem_nil kv)
  · intro q hq
    exact Option.noConfusion hq
  · intro kv hkv
    exact absurd hkv (List.not_mem_nil kv)
  · intro kv hkv
    exact absurd hkv (List.not_mem_nil kv)

theorem BInv_add_state {A A' : APD Str} {s : Str} {f : Bool}
    (h : add_state A s f = .ok A') (hb : BInv A) : BInv A' := by
  obtain ⟨⟨hnds, hndf, hfs, hends, hinit⟩, hknd, hsym, hdet⟩ := hb
  by_cases hs : s ∈ A.states
  · rw [add_state, if_pos hs] at h
    exact Except.noConfusion h
  · rw [add_state, if_neg hs] at h
    injection h with h
    subst h
    have hstates : (A.states ++ [s]).Nodup := by
      rw [List.nodup_append]
      refine ⟨hnds, List.nodup_singleton s, ?_⟩
      intro x hx hx2
      rw [List.mem_singleton] at hx2
      subst hx2
      exact hs hx
    refine ⟨⟨hstates, ?_, ?_, ?_, ?_⟩, hknd, hsym, hdet⟩
    · show (if f then A.final_states ++ [s] else A.final_states).Nodup
      cases f with
      | false => exact hndf
      | true =>
        rw [if_pos rfl, List.nodup_append]
        refine ⟨hndf, List.nodup_singleton s, ?_⟩
        intro x hx hx2
        rw [List.mem_singleton] at hx2
        subst hx2
        exact hs (hfs x hx)
    · intro x hx
      show x ∈ A.states ++ [s]
      revert hx
      show x ∈ (if f then A.final_states ++ [s] else A.final_states) → _
      cases f with
      | false =>
        intro hx
        exact List.mem_append_left _ (hfs x hx)
      | true =>
        rw [if_pos rfl]
        intro hx
        rcases List.mem_append.mp hx with hx | hx
        · exact List.mem_append_left _ (hfs x hx)
        · exact List.mem_append_right _ hx
    · intro kv hkv
      exact ⟨List.mem_append_left _ (hends kv hkv).1,
        List.mem_append_left _ (hends kv hkv).2⟩
    · intro q hq
      exact List.mem_append_left _ (hinit q hq)

theorem BInv_mark {A A' : APD Str} {s : Str}
    (h : mark_initial_state A s = .ok A') (hb : BInv A) : BInv A' := by
  obtain ⟨⟨hnds, hndf, hfs, hends, _⟩, hknd, hsym, hdet⟩ := hb
  by_cases hs : s ∈ A.states
  · rw [mark_initial_state, if_pos hs] at h
    injection h with h
    subst h
    refine ⟨⟨hnds, hndf, hfs, hends, ?_⟩, hknd, hsym, hdet⟩
    intro q hq
    have hq' : some s = some q := hq
    injection hq' with hq'
    rw [← hq']
    exact hs
  · rw [mark_initial_state, if_neg hs] at h
    exact Except.noConfusion h

theorem BInv_set_stack {A : APD Str} (c : Char) (hb : BInv A) :
    BInv (set_initial_stack_symbol A c) := hb

theorem addT_common (A : APD Str) (s ns : Str) (isym : Option Char) (top : Char)
    (push : Str) (hb : BInv A) (hs : s ∈ A.states) (hns : ns ∈ A.states)
    (hk : ¬ hasKey A.transitions (s, isym, top) = true) :
    WFren (addTransitionT A s ns isym top push) ∧
    ((addTransitionT A s ns isym top push).transitions.map (·.1)).Nodup ∧
    (∀ kv ∈ (addTransitionT A s ns isym top push).transitions, ∀ c,
       kv.1.2.1 = some c → c ∈ (addTransitionT A s ns isym top push).input_alphabet) := by
  obtain ⟨⟨hnds, hndf, hfs, hends, hinit⟩, hknd, hsym, _⟩ := hb
  have hkf : hasKey A.transitions (s, isym, top) = false := by
    cases hkk : hasKey A.transitions (s, isym, top) with
    | false => rfl
    | true => exact absurd hkk hk
  refine ⟨⟨hnds, hndf, hfs, ?_, hinit⟩, ?_, ?_⟩
  · intro kv hkv
    show kv.1.1 ∈ A.states ∧ kv.2.1 ∈ A.states
    rcases List.mem_append.mp hkv with hkv | hkv
    · exact hends kv hkv
    · rw [List.mem_singleton] at hkv
      subst hkv
      exact ⟨hs, hns⟩
  · show ((A.transitions
        ++ [((s, isym, top), (ns, push))]).map (·.1)).Nodup
    rw [List.map_append, List.nodup_append]
    refine ⟨hknd, List.nodup_singleton _, ?_⟩
    intro x hx hx2
    rw [show (([((s, isym, top), (ns, push))]).map (·.1))
        = [(s, isym, top)] from rfl, List.mem_singleton] at hx2
    subst hx2
    obtain ⟨kv, hkv, hEq⟩ := List.mem_map.mp hx
    exact (hasKey_false_iff A.transitions (s, isym, top)).mp hkf kv hkv hEq
  · intro kv hkv c hc
    show c ∈ (match isym with
      | some c0 => setAdd A.input_alphabet c0
      | none => A.input_alphabet)
    rcases List.mem_append.mp hkv with hkv | hkv
    · have hmem := hsym kv hkv c hc
      cases isym with
      | some c0 => exact mem_setAdd_of_mem c0 hmem
      | none => exact hmem
    · rw [List.mem_singleton] at hkv
      subst hkv
      cases isym with
      | some c0 =>
        have hc' : some c0 = some c := hc
        injection hc' with hc'
        rw [← hc']
        exact mem_setAdd_self A.input_alphabet c0
      | none => exact Option.noConfusion hc

theorem addT_det_sym (A : APD Str) (s ns : Str) (c : Char) (top : Char) (push : Str)
    (hdet : DetInvP A)
    (hke : ¬ hasKey A.transitions (s, none, top) = true) :
    DetInvP (addTransitionT A s ns (some c) top push) := by
  intro kv hkv kv' hkv' hkve hsame1 hsame2
  rcases List.mem_append.mp hkv with hkv | hkv
  · rcases List.mem_append.mp hkv' with hkv' | hkv'
    · exact hdet kv hkv kv' hkv' hkve hsame1 hsame2
    · rw [List.mem_singleton] at hkv'
      subst hkv'
      exfalso
      apply hke
      rw [hasKey_true_iff]
      refine ⟨kv, hkv, ?_⟩
      show kv.1 = (s, none, top)
      have e1 : kv.1.1 = s := hsame1.symm
      have e3 : kv.1.2.2 = top := hsame2.symm
      show (kv.1.1, kv.1.2.1, kv.1.2.2) = (s, none, top)
      rw [e1, hkve, e3]
  · rw [List.mem_singleton] at hkv
    subst hkv
    exact absurd hkve (Option.some_ne_none c)

theorem addT_det_eps (A : APD Str) (s ns : Str) (top : Char) (push : Str)
    (hdet : DetInvP A)
    (hsym : ∀ kv ∈ A.transitions, ∀ c, kv.1.2.1 = some c → c ∈ A.input_alphabet)
    (hka : ¬ (A.input_alphabet.any fun symbol =>
        hasKey A.transitions (s, some symbol, top)) = true) :
    DetInvP (addTransitionT A s ns none top push) := by
  intro kv hkv kv' hkv' hkve hsame1 hsame2
  rcases List.mem_append.mp hkv' with hkv' | hkv'
  · rcases List.mem_append.mp hkv with hkv | hkv
    · exact hdet kv hkv kv' hkv' hkve hsame1 hsame2
    · rw [List.mem_singleton] at hkv
      subst hkv
      by_contra hne
      cases hcc : kv'.1.2.1 with
      | none => exact hne hcc
      | some c' =>
        apply hka
        rw [List.any_eq_true]
        refine ⟨c', hsym kv' hkv' c' hcc, ?_⟩
        rw [hasKey_true_iff]
        refine ⟨kv', hkv', ?_⟩
        show (kv'.1.1, kv'.1.2.1, kv'.1.2.2) = (s, some c', top)
        rw [hsame1, hcc, hsame2]
  · rw [List.mem_singleton] at hkv'
    subst hkv'
    rfl

theorem BInv_add_transition {A A' : APD Str} {s ns : Str} {isym : Option Char}
    {top : Char} {push : Str}
    (h : add_transition A s ns isym top push = .ok A') (hb : BInv A) : BInv A' := by
  rw [add_transition.eq_def] at h
  by_cases hs : s ∉ A.states
  · rw [if_pos hs] at h
    exact Except.noConfusion h
  · rw [if_neg hs] at h
    by_cases hns : ns ∉ A.states
    · rw [if_pos hns] at h
      exact Except.noConfusion h
    · rw [if_neg hns] at h
      by_cases hkk : hasKey A.transitions (s, isym, top) = true
      · rw [if_pos hkk] at h
        exact Except.noConfusion h
      · rw [if_neg hkk] at h
        push_neg at hs hns
        cases isym with
        | some c =>
          replace h : (if hasKey A.transitions (s, none, top) = true
              then (Except.error BuildErr.nonDetConflict : Except BuildErr (APD Str))
              else Except.ok (addTransitionT A s ns (some c) top push))
              = Except.ok A' := h
          by_cases hke : hasKey A.transitions (s, none, top) = true
          · rw [if_pos hke] at h
            exact Except.noConfusion h
          · rw [if_neg hke] at h
            injection h with h
            subst h
            obtain ⟨hwf', hknd', hsym'⟩ := addT_common A s ns (some c) top push hb hs hns hkk
            exact ⟨hwf', hknd', hsym', addT_det_sym A s ns c top push hb.2.2.2 hke⟩
        | none =>
          replace h : (if (A.input_alphabet.any fun symbol =>
                hasKey A.transitions (s, some symbol, top)) = true
              then (Except.error BuildErr.nonDetConflict : Except BuildErr (APD Str))
              else Except.ok (addTransitionT A s ns none top push))
              = Except.ok A' := h
          by_cases hka : (A.input_alphabet.any fun symbol =>
              hasKey A.transitions (s, some symbol, top)) = true
          · rw [if_pos hka] at h
            exact Except.noConfusion h
          · rw [if_neg hka] at h
            injection h with h
            subst h
            obtain ⟨hwf', hknd', hsym'⟩ := addT_common A s ns none top push hb hs hns hkk
            exact ⟨hwf', hknd', hsym',
              addT_det_eps A s ns top push hb.2.2.2 hb.2.2.1 hka⟩

theorem BInv_normalize {A : APD Str} (hb : BInv A) : BInv (normalize_states A) := by
  obtain ⟨φ, hg, _⟩ := normalize_states_good A hb.1
  obtain ⟨hsim, hinj, hwfN⟩ := hg
  have hT := hsim.2.2.2.1
  have hIA := hsim.2.2.2.2.1
  refine ⟨hwfN, ?_, ?_, ?_⟩
  · rw [hT]
    have hts : A.transitions.Nodup := hb.2.1.of_map
    rw [List.map_map]
    refine List.Nodup.map_on ?_ hts
    intro x hx y hy hEq
    have e1 : φ x.1.1 = φ y.1.1 := congrArg (fun p => p.1) hEq
    have e2 : x.1.2.1 = y.1.2.1 := congrArg (fun p => p.2.1) hEq
    have e3 : x.1.2.2 = y.1.2.2 := congrArg (fun p => p.2.2) hEq
    have hx1 : x.1.1 = y.1.1 :=
      hinj _ (hb.1.2.2.2.1 x hx).1 _ (hb.1.2.2.2.1 y hy).1 e1
    have hkeq : x.1 = y.1 := by
      show (x.1.1, x.1.2.1, x.1.2.2) = (y.1.1, y.1.2.1, y.1.2.2)
      rw [hx1, e2, e3]
    exact List.inj_on_of_nodup_map hb.2.1 hx hy hkeq
  · intro kv hkv c hc
    rw [hT] at hkv
    obtain ⟨kv0, hkv0, rfl⟩ := List.mem_map.mp hkv
    rw [hIA]
    exact hb.2.2.1 kv0 hkv0 c hc
  · intro kv hkv kv' hkv' hkve hs1 hs2
    rw [hT] at hkv hkv'
    obtain ⟨a, ha, rfl⟩ := List.mem_map.mp hkv
    obtain ⟨b, hbm, rfl⟩ := List.mem_map.mp hkv'
    have h1 : φ b.1.1 = φ a.1.1 := hs1
    have hb1 : b.1.1 = a.1.1 :=
      hinj _ (hb.1.2.2.2.1 b hbm).1 _ (hb.1.2.2.2.1 a ha).1 h1
    exact hb.2.2.2 a ha b hbm hkve hb1 hs2

/-- C3: for every automaton constructed exclusively through the builder
operations — any sequence of successful `add_state`, `mark_initial_state`,
`set_initial_stack_symbol` and `add_transition` calls, optionally with
`normalize_states` steps — the determinism invariant holds: no
`(state, stack-top)` pair carries both an ε-transition and a
symbol-transition, and `is_deterministic` returns `True`.  `Built` holds
after every prefix of a construction sequence, so the invariant holds
after every operation. -/
theorem C3_built_deterministic (A : APD Str) (h : Built A) :
    DetInvP A ∧ is_deterministic A = true := by
  have hbi : BInv A := by
    induction h with
    | init => exact BInv_init
    | addState _ hok ih => exact BInv_add_state hok ih
    | markInitial _ hok ih => exact BInv_mark hok ih
    | setStack _ ih => exact BInv_set_stack _ ih
    | addTrans _ hok ih => exact BInv_add_transition hok ih
    | normalize _ ih => exact BInv_normalize ih
  exact ⟨hbi.2.2.2, is_deterministic_of_DetInvP A hbi.2.2.2⟩

/-- Witness for C3: the ε-looping automaton built by the `buildPloop`
sequence (state, initial mark, stack symbol, one ε-transition), followed by
a `normalize_states`, satisfies the determinism invariant and passes the
`is_deterministic` re-check. -/
theorem C3_witness :
    DetInvP (normalize_states P_loop) ∧
    is_deterministic (normalize_states P_loop) = true := by
  have e1 : add_state (newAPD Str) "q0".data false
      = .ok (⟨["q0".data], none, [], [], [], [], '⊥'⟩ : APD Str) := rfl
  have b1 := Built.addState Built.init e1
  have e2 : mark_initial_state (⟨["q0".data], none, [], [], [], [], '⊥'⟩ : APD Str)
      "q0".data
      = .ok (⟨["q0".data], some "q0".data, [], [], [], [], '⊥'⟩ : APD Str) := rfl
  have b2 := Built.markInitial b1 e2
  have b3 : Built (set_initial_stack_symbol
      (⟨["q0".data], some "q0".data, [], [], [], [], '⊥'⟩ : APD Str) 'Z') :=
    Built.setStack b2
  have e4 : add_transition (set_initial_stack_symbol
      (⟨["q0".data], some "q0".data, [], [], [], [], '⊥'⟩ : APD Str) 'Z')
      "q0".data "q0".data none 'Z' "Z".data = .ok P_loop := rfl
  have b4 := Built.addTrans b3 e4
  exact C3_built_deterministic _ (Built.normalize b4)

end APDVerify
